import Mathlib

/-!
# Untrunc: the payload scan of `Mp4::repair`, `Mp4::save` and `Mp4::makeStreamable`

A shallow embedding of `src/mp4.cpp`.  The C++ code mutates tracks and boxes in
place; here every loop body is a function from state to state.  Integers are
`Int`; where the source narrows a value to 32 bits the narrowing is written out.
Bytes are natural numbers below 256.

Definitions come first, theorems after them.
-/

set_option autoImplicit false

namespace Untrunc

/-! ## Machine words -/

/-- Conversion to `unsigned int`: the value modulo `2^32`. -/
def toUInt32 (x : Int) : Int := x % 4294967296

/-- Conversion to `int` (`static_cast<int>`), two's complement on 32 bits. -/
def toInt32 (x : Int) : Int := (x + 2147483648) % 4294967296 - 2147483648

/-- Conversion to `int64_t`, two's complement on 64 bits. -/
def toInt64 (x : Int) : Int :=
  (x + 9223372036854775808) % 18446744073709551616 - 9223372036854775808

/-- Modelled from the spec: `swap32` is declared in file.h, which is not among the
sources; mp4.cpp applies it to the word read at the cursor to obtain the box
length it skips by.  It is taken to be the reversal of the four bytes of an
unsigned 32-bit word. -/
def swap32 (x : Int) : Int :=
  (x % 256) * 16777216 + (x / 256 % 256) * 65536 + (x / 65536 % 256) * 256
    + (x / 16777216 % 256)

/-- The four bytes at `pos` read as a big-endian unsigned number, the way a box
header stores its declared length.  Bytes past the end count as 0. -/
def be32 (bytes : List Nat) (pos : Nat) : Int :=
  (bytes.getD pos 0 : Int) * 16777216 + (bytes.getD (pos + 1) 0 : Int) * 65536
    + (bytes.getD (pos + 2) 0 : Int) * 256 + (bytes.getD (pos + 3) 0 : Int)

/-- The four bytes at `pos` loaded as a little-endian unsigned number: what a raw
`*(int *)` load of them gives on a little-endian host. -/
def le32 (bytes : List Nat) (pos : Nat) : Int :=
  (bytes.getD pos 0 : Int) + (bytes.getD (pos + 1) 0 : Int) * 256
    + (bytes.getD (pos + 2) 0 : Int) * 65536 + (bytes.getD (pos + 3) 0 : Int) * 16777216

/-! ## Tracks and codecs -/

/-- The constant `MaxFrameLength` of mp4.cpp. -/
def MaxFrameLength : Int := 16000000

/-- The codec capability of a track (`track.codec`), whose code is outside
mp4.cpp: its name and the three queries `repair` makes, each on the byte window
`start` and its length `maxlength`.  `getLength` returns the frame length
together with the value it leaves in its `duration` out-parameter (0 when it
does not set it). -/
structure Codec where
  name : String
  matchSample : List Nat → Int → Bool
  getLength : List Nat → Int → Int × Int
  isKeyframe : List Nat → Int → Bool

/-- The fields of `Track` that mp4.cpp reads and writes. -/
structure Track where
  codec : Codec
  timescale : Int
  duration : Int
  offsets : List Int
  sizes : List Int
  keyframes : List Nat
  times : List Int

/-- Modelled from the spec: `Track::clear` (track.cpp is not among the sources)
"resets all derived tables to empty". -/
def Track.clear (t : Track) : Track :=
  { t with offsets := [], sizes := [], keyframes := [], times := [] }

/-! ## The lazily addressed payload box -/

/-- The fields of `BufferedAtom` that `repair` uses: the box position and
declared length, the backing file, and the byte range of the payload in it. -/
structure BufferedAtom where
  start : Int
  length : Int
  file : List Nat
  file_begin : Int
  file_end : Int

/-- Modelled from the spec: `BufferedAtom::contentSize` (atom.cpp is not among the
sources) is the size of the lazily addressed byte range, `file_end - file_begin`. -/
def BufferedAtom.contentSize (m : BufferedAtom) : Int := m.file_end - m.file_begin

/-- Modelled from the spec: `BufferedAtom::getFragment(offset, size)` (atom.cpp is
not among the sources) gives the `size` payload bytes from `offset` on, read from
the backing file at `file_begin + offset`. -/
def BufferedAtom.getFragment (m : BufferedAtom) (offset size : Int) : List Nat :=
  (m.file.drop (m.file_begin + offset).toNat).take size.toNat

/-- Modelled from the spec: `BufferedAtom::readInt` (atom.cpp is not among the
sources) is the "big-endian 32-bit read ... at a byte offset relative to the box's
payload start", with the same contract as `Atom::readInt`; the payload of the
lazily addressed box starts at `file_begin`.  The result is an `int`. -/
def BufferedAtom.readInt (m : BufferedAtom) (offset : Int) : Int :=
  toInt32 (be32 m.file (m.file_begin + offset).toNat)

/-! ## The search for the payload box in `Mp4::repair` -/

/-- What `repair` uses of the box whose header `Atom::parseHeader` has read: the
fields `start`, `length` and `name`, and the file position after the header
(`file.pos()`). -/
structure AtomHeader where
  start : Int
  length : Int
  name : String
  pos : Int
  deriving DecidableEq

/-- Modelled from the spec: `Atom::parseHeader` (atom.cpp is not among the sources)
"reads the 8-byte (or 16-byte for 64-bit-length) box header at the current file
cursor; fails with a structural error if fewer than 8 bytes remain".  The header
is the 4-byte big-endian length and the 4-byte type tag; a length field of 1 is
followed by the 8-byte length, held in 64 bits, and a length field of 0 "means
extends to end of enclosing container", here the file.  `none` stands for the
failure. -/
def parseHeader (file : List Nat) (pos : Int) : Option AtomHeader :=
  if pos < 0 ∨ (file.length : Int) < pos + 8 then none
  else
    let name := String.mk ((List.range 4).map fun i => Char.ofNat (file.getD (pos.toNat + 4 + i) 0))
    if be32 file pos.toNat = 1 then
      if (file.length : Int) < pos + 16 then none
      else
        some { start := pos
               length := toInt64 (be32 file (pos.toNat + 8) * 4294967296
                 + be32 file (pos.toNat + 12))
               name := name, pos := pos + 16 }
    else if be32 file pos.toNat = 0 then
      some { start := pos, length := (file.length : Int) - pos, name := name, pos := pos + 8 }
    else some { start := pos, length := be32 file pos.toNat, name := name, pos := pos + 8 }

/-- How the search for the payload box ends: with the lazily addressed payload box
set up (lines 599-608), or with the exception thrown at line 590. -/
inductive Search where
  | found (mdat : BufferedAtom)
  | failed (message : String)

/-- The loop of lines 585-609, run for at most `fuel` iterations from the file
position `pos`: `none` when the fuel runs out before the loop ends.  `header` is
`Atom::parseHeader` on the file at a position.  The length of the new payload box
is left at 0, `repair` does not set it here. -/
def findMdat (header : List Nat → Int → Option AtomHeader) (file : List Nat) :
    Nat → Int → Option Search
  | 0, _ => none
  | fuel + 1, pos =>
    match header file pos with
    | none => some (.failed "Failed to parse atoms in truncated file")
    | some atom =>
      if atom.name != "mdat" then findMdat header file fuel (atom.pos - 8 + atom.length)
      else
        some (.found
          { start := atom.start, length := 0, file := file, file_begin := atom.pos,
            file_end := (file.length : Int) - atom.pos })

/-! ## The scanning loop of `Mp4::repair` -/

/-- State of the scanning loop: the tracks, `audiotimes`, `count`, the cursor
`offset` and the payload box `mdat`. -/
structure ScanState where
  tracks : List Track
  audiotimes : List Int
  count : Nat
  offset : Int
  mdat : BufferedAtom

/-- What the `for` loop over the tracks leaves behind: the tracks, the lines
"Track i codec: name" it logged (index and name, in order), and, when `found`
became true, the accepted length and duration. -/
structure Attempt where
  tracks : List Track
  log : List (Nat × String)
  found : Option (Int × Int)

/-- The track after a sample of `length` bytes at `offset` was pushed to its
tables (lines 697-701). -/
def Track.record (track : Track) (keyframe : Bool) (offset length : Int) : Track :=
  { track with
    keyframes := if keyframe then track.keyframes ++ [track.offsets.length] else track.keyframes
    offsets := track.offsets ++ [offset]
    sizes := track.sizes ++ [length] }

/-- The `for` loop over the tracks (lines 671-709), from track index `i` on.
`many` is `tracks.size() > 1`. -/
def tryTracks (many : Bool) (start : List Nat) (maxlength offset : Int) :
    Nat → List Track → Attempt
  | _, [] => ⟨[], [], none⟩
  | i, track :: rest =>
    let skip : Attempt :=
      let r := tryTracks many start maxlength offset (i + 1) rest
      ⟨track :: r.tracks, (i, track.codec.name) :: r.log, r.found⟩
    if many && !track.codec.matchSample start maxlength then skip
    else
      let length := (track.codec.getLength start maxlength).1
      let duration := (track.codec.getLength start maxlength).2
      if length < -1 || length > MaxFrameLength then skip
      else if length == -1 || length == 0 then skip
      else if length ≥ maxlength then skip
      else
        let keyframe := track.codec.isKeyframe start maxlength
        ⟨track.record keyframe offset length :: rest, [(i, track.codec.name)],
          some (length, duration)⟩

/-- How one run of the loop body ends: `next` when control goes back to the loop
test (`continue` or the end of the body), `stop` on `break`. -/
inductive Step where
  | next (s : ScanState)
  | stop (s : ScanState)

/-- Whether the four bytes from `pos` on spell the four characters given (the test
`start[4] == 'm' && start[5] == 'o' && ...` for `pos = 4`).  Bytes past the end
count as 0. -/
def tagAt (bytes : List Nat) (pos : Nat) (a b c d : Char) : Bool :=
  bytes.getD pos 0 == a.toNat && bytes.getD (pos + 1) 0 == b.toNat
    && bytes.getD (pos + 2) 0 == c.toNat && bytes.getD (pos + 3) 0 == d.toNat

/-- The window length `maxlength64` at the cursor (lines 630-632). -/
def maxLength (s : ScanState) : Int :=
  if s.mdat.contentSize - s.offset > MaxFrameLength then MaxFrameLength
  else s.mdat.contentSize - s.offset

/-- The body of the scanning loop (lines 629-724).  `readInt` is
`BufferedAtom::readInt`, whose code is not among the sources: the word it
returns for the payload offset given.  `static_cast<int>(maxlength64)` is left
out, the value being between 1 and 16000000 inside the loop. -/
def scanBody (readInt : BufferedAtom → Int → Int) (s : ScanState) : Step :=
  let maxlength := maxLength s
  let start := s.mdat.getFragment s.offset maxlength
  let begin_ := toUInt32 (readInt s.mdat s.offset)
  if begin_ == 0 then .next { s with offset := s.offset + 4 }
  else if tagAt start 4 'm' 'o' 'o' 'v' then .next { s with offset := s.offset + swap32 begin_ }
  else if tagAt start 4 'f' 'r' 'e' 'e' then .next { s with offset := s.offset + swap32 begin_ }
  else
    let a := tryTracks (decide (s.tracks.length > 1)) start maxlength s.offset 0 s.tracks
    match a.found with
    | some (length, duration) =>
      .next { s with
        tracks := a.tracks
        offset := s.offset + length
        audiotimes := if duration != 0 then s.audiotimes ++ [duration] else s.audiotimes
        count := s.count + 1 }
    | none =>
      .stop { s with
        tracks := a.tracks
        mdat := { s.mdat with
          file_end := s.mdat.file_begin + s.offset
          length := s.mdat.file_begin + s.offset - s.mdat.file_begin } }

/-- The scanning loop (line 628), run for at most `fuel` iterations: `none` when
the fuel runs out before the loop ends. -/
def scanLoop (readInt : BufferedAtom → Int → Int) : Nat → ScanState → Option ScanState
  | 0, _ => none
  | fuel + 1, s =>
    if s.offset < s.mdat.contentSize then
      match scanBody readInt s with
      | .next s1 => scanLoop readInt fuel s1
      | .stop s1 => some s1
    else some s

/-- The state at the loop test after `n` runs of the loop body, when the loop has
not ended before: the states the scan goes through. -/
def scanAfter (readInt : BufferedAtom → Int → Int) : Nat → ScanState → Option ScanState
  | 0, s => some s
  | n + 1, s =>
    if s.offset < s.mdat.contentSize then
      match scanBody readInt s with
      | .next s1 => scanAfter readInt n s1
      | .stop _ => none
    else none

/-- The lines "Track i codec: name" that the loop body logs in state `s` when it
gets to the loop over the tracks: the tracks in the order in which that loop
takes them up. -/
def trackLog (s : ScanState) : List (Nat × String) :=
  (tryTracks (decide (s.tracks.length > 1)) (s.mdat.getFragment s.offset (maxLength s))
    (maxLength s) s.offset 0 s.tracks).log

/-- The reordering before the scan (lines 615-621): tracks 0 and 1 are swapped
when track 0 is not mp4a and track 1 is. -/
def swapTracks : List Track → List Track
  | t0 :: t1 :: rest =>
    if t0.codec.name != "mp4a" && t1.codec.name == "mp4a" then t1 :: t0 :: rest
    else t0 :: t1 :: rest
  | tracks => tracks

/-- The state in which the scanning loop starts (lines 612-627). -/
def scanInit (tracks : List Track) (mdat : BufferedAtom) : ScanState :=
  { tracks := swapTracks (tracks.map Track.clear), audiotimes := [], count := 0,
    offset := 0, mdat := mdat }

/-- Lines 612-725 of `repair`: clear the tracks, reorder them, scan the payload.
The fuel is one more than the payload size, which the loop never uses up. -/
def repairScan (readInt : BufferedAtom → Int → Int) (tracks : List Track)
    (mdat : BufferedAtom) : Option ScanState :=
  scanLoop readInt (mdat.contentSize.toNat + 1) (scanInit tracks mdat)

/-! ## The offset shift of `Mp4::save` -/

/-- The value `offset` of lines 427-429: metadata box length plus 8, plus the
file-type box length when there is one. -/
def saveOffset (moovLength : Int) (ftypLength : Option Int) : Int :=
  match ftypLength with
  | some l => moovLength + 8 + l
  | none => moovLength + 8

/-- Lines 431-435: `track.offsets[i] += offset` for every sample of every track. -/
def fixOffsets (offset : Int) (tracks : List Track) : List Track :=
  tracks.map fun track => { track with offsets := track.offsets.map fun o => o + offset }

/-! ## The durations of `Mp4::save` -/

/-- Modelled from the spec: a box (`Atom`) has "an absolute byte offset (`start`)
where the length field begins in the original file", a declared length, a type
tag, a payload of bytes, and child boxes. -/
inductive Atom where
  | mk (start : Int) (length : Int) (name : String) (content : List Nat)
      (children : List Atom)

/-- The field `start`. -/
def Atom.start : Atom → Int
  | .mk start _ _ _ _ => start

/-- The field `length`. -/
def Atom.length : Atom → Int
  | .mk _ length _ _ _ => length

/-- The field `name`. -/
def Atom.name : Atom → String
  | .mk _ _ name _ _ => name

/-- The field `content`. -/
def Atom.content : Atom → List Nat
  | .mk _ _ _ content _ => content

/-- The field `children`. -/
def Atom.children : Atom → List Atom
  | .mk _ _ _ _ children => children

/-- The four bytes of a 32-bit value, most significant first. -/
def be32Bytes (x : Int) : List Nat :=
  [(toUInt32 x / 16777216 % 256).toNat, (toUInt32 x / 65536 % 256).toNat,
    (toUInt32 x / 256 % 256).toNat, (toUInt32 x % 256).toNat]

/-- The four bytes of a type tag as a header holds them: the characters of the
name, cut or padded with 0 to four. -/
def tagBytes (name : String) : List Nat :=
  ((name.toList.map Char.toNat) ++ [0, 0, 0, 0]).take 4

/-- Modelled from the spec: `Atom::readInt(offset)` is a "big-endian 32-bit read
... at a byte offset relative to the box's payload start"; the result is an `int`. -/
def Atom.readInt (a : Atom) (offset : Int) : Int :=
  toInt32 (be32 a.content offset.toNat)

/-- The bytes `bytes` with the four from `pos` on replaced by `word`; unchanged when
they do not lie inside. -/
def setWord (bytes : List Nat) (pos : Nat) (word : List Nat) : List Nat :=
  if pos + 4 ≤ bytes.length then bytes.take pos ++ word ++ bytes.drop (pos + 4) else bytes

/-- Modelled from the spec: `Atom::writeInt(value, offset)` is a "big-endian 32-bit
... write at a byte offset relative to the box's payload start", of the value
narrowed to 32 bits. -/
def Atom.writeInt (a : Atom) (value offset : Int) : Atom :=
  .mk a.start a.length a.name (setWord a.content offset.toNat (be32Bytes value)) a.children

mutual
/-- Modelled from the spec: `Atom::write` "serializes header then payload
(recursing into children ...)": declared length, type tag, payload bytes, child
boxes. -/
def Atom.write : Atom → List Nat
  | .mk _ length name content children =>
    be32Bytes length ++ tagBytes name ++ content ++ writeAll children
/-- The boxes of a list written one after the other. -/
def writeAll : List Atom → List Nat
  | [] => []
  | a :: rest => a.write ++ writeAll rest
end

mutual
/-- Modelled from the spec: `Atom::updateLength` "recursively recomputes every
box's declared length from its actual serialized payload size, bottom-up":
8 bytes of header, the payload, the children. -/
def Atom.updateLength : Atom → Atom
  | .mk start _ name content children =>
    .mk start (8 + content.length + lengthSum (updateLengthAll children)) name content
      (updateLengthAll children)
/-- `updateLength` on every box of a list. -/
def updateLengthAll : List Atom → List Atom
  | [] => []
  | a :: rest => a.updateLength :: updateLengthAll rest
/-- The sum of the declared lengths of the boxes of a list. -/
def lengthSum : List Atom → Int
  | [] => 0
  | a :: rest => a.length + lengthSum rest
end

mutual
/-- Modelled from the spec: `Atom::atomByName(name)` is the lookup of the first box
of a type tag below a box.  It descends into the children: mp4.cpp finds `mvhd`
and `ctts`, which lie below `moov`, from the root.  A child is looked at before
its own children, and these before the child's next sibling. -/
def Atom.atomByName (name : String) : Atom → Option Atom
  | .mk _ _ _ _ children => atomByNameAll name children
/-- The lookup of `atomByName` in a list of boxes and below them. -/
def atomByNameAll (name : String) : List Atom → Option Atom
  | [] => none
  | a :: rest =>
    if a.name == name then some a
    else
      match a.atomByName name with
      | some r => some r
      | none => atomByNameAll name rest
end

mutual
/-- Modelled from the spec: `Atom::atomsByName(name)` is the lookup of all boxes of
a type tag below a box, in the order of `atomByName`. -/
def Atom.atomsByName (name : String) : Atom → List Atom
  | .mk _ _ _ _ children => atomsByNameAll name children
/-- The lookup of `atomsByName` in a list of boxes and below them. -/
def atomsByNameAll (name : String) : List Atom → List Atom
  | [] => []
  | a :: rest =>
    (if a.name == name then [a] else []) ++ a.atomsByName name ++ atomsByNameAll name rest
end

/-! ## `Mp4::makeStreamable` -/

/-- Lines 327-334: the loop over the entries of one `stco` box, which adds `diff`
to each of the `nchunks` 32-bit entries at body offsets `8 + 4*j`; `4*j` is a
product of `int`s. -/
def shiftStco (diff : Int) (stco : Atom) : Atom :=
  (List.range (stco.readInt 4).toNat).foldl
    (fun (a : Atom) (j : Nat) => a.writeInt (a.readInt (8 + toInt32 (4 * (j : Int))) + diff)
      (8 + toInt32 (4 * (j : Int))))
    stco

mutual
/-- Lines 325-335: every box named `stco` below the box has its entries shifted
by `diff`; the boxes are changed in place, here the box is rebuilt with the
changed boxes in their places. -/
def Atom.relocate (diff : Int) : Atom → Atom
  | .mk start length name content children =>
    .mk start length name content (relocateAll diff children)
/-- The shift of the `stco` boxes in a list of boxes and below them. -/
def relocateAll (diff : Int) : List Atom → List Atom
  | [] => []
  | a :: rest =>
    (if a.name == "stco" then shiftStco diff (a.relocate diff) else a.relocate diff)
      :: relocateAll diff rest
end

/-- The fields of a box apart from its children. -/
def Atom.node (a : Atom) : Int × Int × String × List Nat :=
  (a.start, a.length, a.name, a.content)

/-- A chunk-offset table that is well formed: its entry count (the 32-bit value at
body offset 4, as the loop reads it) is not negative, the entries lie inside the
body, and `4*j` stays within an `int` for each of them. -/
def StcoOk (stco : Atom) : Prop :=
  0 ≤ stco.readInt 4 ∧ stco.readInt 4 ≤ 536870912 ∧
    8 + 4 * stco.readInt 4 ≤ stco.content.length

/-- The length of the file-type box, 0 when there is none (lines 308-309). -/
def ftypLength (ftyp : Option Atom) : Int :=
  match ftyp with
  | some f => f.length
  | none => 0

/-- `Mp4::makeStreamable` from the parsed boxes on (lines 290-349); `root` holds
the boxes of the file as its children.  The result is the value returned and the
boxes written to the output file in their order, `none` when no file is written.
The three boxes found are taken to be separate boxes of the tree, and the
positions and lengths to be within `int64_t`, whose arithmetic is then exact. -/
def makeStreamable (root : Atom) : Bool × Option (List Atom) :=
  let ftyp := root.atomByName "ftyp"
  match root.atomByName "moov", root.atomByName "mdat" with
  | some moov, some mdat =>
    if mdat.start > moov.start then (true, none)
    else
      let old_start := mdat.start + 8
      let new_start := moov.length + 8 + ftypLength ftyp
      let diff := new_start - old_start
      (true, some (ftyp.toList ++ [moov.relocate diff, mdat]))
  | _, _ => (false, none)

mutual
/-- Modelled from the spec: a box read back from a file has `start` at the
position "where the length field begins"; its children follow the 8 bytes of
header and the payload, each box where the declared length of the one before
ends. -/
def Atom.place (pos : Int) : Atom → Atom
  | .mk _ length name content children =>
    .mk pos length name content (placeAll (pos + 8 + content.length) children)
/-- The boxes of a list placed one after the other from `pos` on. -/
def placeAll (pos : Int) : List Atom → List Atom
  | [] => []
  | a :: rest => a.place pos :: placeAll (pos + a.length) rest
end

/-- Modelled from the spec: the boxes that parsing a file gives when the file was
written from the boxes given ("Round-trip"), as children of a root box. -/
def reparse (boxes : List Atom) : Atom :=
  .mk 0 0 "" [] (placeAll 0 boxes)

mutual
/-- The invariant of the spec that "`length` equals the header size plus the
serialized size of the payload (or children)", for a box and all boxes below it. -/
def Atom.LengthsOk : Atom → Prop
  | .mk _ length _ content children =>
    length = 8 + content.length + lengthSum children ∧ LengthsOkAll children
/-- `LengthsOk` for every box of a list. -/
def LengthsOkAll : List Atom → Prop
  | [] => True
  | a :: rest => a.LengthsOk ∧ LengthsOkAll rest
end

/-! ## The rewrite of `Mp4::save` -/

/-- Lines 420-424 of `save` for the metadata box: the three prunings, then the
recomputation of the lengths.  `prune` stands for `Atom::prune`, whose code is
not among the sources. -/
def savedMoov (prune : String → Atom → Atom) (moov : Atom) : Atom :=
  (prune "stps" (prune "cslg" (prune "ctts" moov))).updateLength

/-- Lines 426-429 of `save`: the value of `offset`, from the boxes with their
lengths recomputed. -/
def savedOffset (prune : String → Atom → Atom) (ftyp : Option Atom) (moov : Atom) : Int :=
  saveOffset (savedMoov prune moov).length ((ftyp.map Atom.updateLength).map Atom.length)

/-- Lines 409-448 of `save`: the boxes are looked up, the metadata box is pruned,
all lengths are recomputed, the sample offsets are shifted and written back, and
the three boxes are written.  `root` and `tracks` are the tree and the tracks
as lines 367-407 leave them.  `writeToAtoms` stands for `Track::writeToAtoms`,
whose code is not among the sources; it acts on the metadata box, which holds
the boxes of the tracks.  The result is the tracks and the boxes written in
their order, `none` when `save` fails. -/
def saveBoxes (prune : String → Atom → Atom) (writeToAtoms : Track → Atom → Atom)
    (root : Atom) (tracks : List Track) : Option (List Track × List Atom) :=
  let ftyp := root.atomByName "ftyp"
  match root.atomByName "moov", root.atomByName "mdat" with
  | some moov, some mdat =>
    let moov1 := savedMoov prune moov
    let ftyp1 := ftyp.map Atom.updateLength
    let mdat1 := mdat.updateLength
    let offset := savedOffset prune ftyp moov
    let tracks1 := fixOffsets offset tracks
    let moov2 := tracks1.foldl (fun m t => writeToAtoms t m) moov1
    some (tracks1, ftyp1.toList ++ [moov2, mdat1])
  | _, _ => none

/-! ## Sample inputs -/

/-- A codec that matches nothing and reports no length. -/
def Codec.none (name : String) : Codec :=
  { name := name, matchSample := fun _ _ => false, getLength := fun _ _ => (-1, 0),
    isKeyframe := fun _ _ => false }

/-- A codec that matches everything and reports the length and duration given. -/
def Codec.fixed (name : String) (length duration : Int) : Codec :=
  { name := name, matchSample := fun _ _ => true, getLength := fun _ _ => (length, duration),
    isKeyframe := fun _ _ => false }

/-- A raw little-endian load of the word at the payload offset: a `readInt` that
does not convert the word it reads. -/
def rawReadInt (m : BufferedAtom) (offset : Int) : Int :=
  le32 m.file (m.file_begin + offset).toNat

/-- A codec that matches a window starting with the byte `tag`, takes the length
from the next byte, and sees a keyframe when the third byte is 1. -/
def Codec.byTag (name : String) (tag : Nat) (duration : Int) : Codec :=
  { name := name, matchSample := fun w _ => w.getD 0 0 == tag,
    getLength := fun w _ => ((w.getD 1 0 : Int), duration),
    isKeyframe := fun w _ => w.getD 2 0 == 1 }

/-- A payload box over the whole of the bytes given. -/
def BufferedAtom.ofBytes (bytes : List Nat) : BufferedAtom :=
  { start := 0, length := 0, file := bytes, file_begin := 0, file_end := bytes.length }

/-- A track without samples, of the codec, time scale and duration given. -/
def Track.empty (codec : Codec) (timescale duration : Int) : Track :=
  { codec := codec, timescale := timescale, duration := duration, offsets := [],
    sizes := [], keyframes := [], times := [] }

/-- A payload of 12 bytes: a frame of avc1 (4 bytes, a keyframe), a frame of mp4a
(3 bytes), and 5 bytes that no codec below accepts. -/
def samplePayload : BufferedAtom :=
  BufferedAtom.ofBytes [9, 4, 1, 0, 7, 3, 0, 1, 1, 1, 1, 1]

/-- Two tracks, avc1 before mp4a. -/
def sampleTracks : List Track :=
  [Track.empty (Codec.byTag "avc1" 9 0) 0 0, Track.empty (Codec.byTag "mp4a" 7 1024) 0 0]

/-- The state of the scan of `samplePayload` with `sampleTracks` after two runs of
the loop body: both frames recorded, the cursor at 7. -/
def sampleState : ScanState :=
  { tracks := [(Track.empty (Codec.byTag "mp4a" 7 1024) 0 0).record false 4 3,
      (Track.empty (Codec.byTag "avc1" 9 0) 0 0).record true 0 4],
    audiotimes := [1024], count := 2, offset := 7, mdat := samplePayload }

/-- A chunk-offset box with the three entries 20, 24 and 27. -/
def sampleStco : Atom :=
  .mk 0 28 "stco" [0, 0, 0, 0, 0, 0, 0, 3, 0, 0, 0, 20, 0, 0, 0, 24, 0, 0, 0, 27] []

/-- A metadata box with one track box, which holds a sample-size box and
`sampleStco`. -/
def sampleMoov : Atom :=
  .mk 0 60 "moov" [] [.mk 0 52 "trak" [] [.mk 0 16 "stsz" [0, 0, 0, 0, 0, 0, 0, 1] [],
    sampleStco]]

/-- A file-type box of 12 bytes. -/
def sampleFtyp : Atom := .mk 0 12 "ftyp" [1, 2, 3, 4] []

/-- A payload box with the 12 bytes of `samplePayload`. -/
def sampleMdat : Atom := .mk 0 20 "mdat" samplePayload.file []

/-- The boxes of a file in which the payload box (at 12, its content at 20) comes
before the metadata box (at 32). -/
def sampleRoot : Atom := reparse [sampleFtyp, sampleMdat, sampleMoov]

/-- A file of 24 bytes whose first box is a `free` box with the 16-byte header:
the length field 1, the tag, and the 64-bit length FF FF FF FF FF FF FF F8. -/
def stuckFile : List Nat :=
  [0, 0, 0, 1, 102, 114, 101, 101, 255, 255, 255, 255, 255, 255, 255, 248,
   1, 2, 3, 4, 5, 6, 7, 8]

/-- A file that is one payload box: the 8 bytes of header and 16 bytes of content,
which hold four frames for the codecs of `sampleTracks` (at 0, 4, 7 and 11) and
two more bytes. -/
def mdatFirstFile : List Nat :=
  [0, 0, 0, 24, 109, 100, 97, 116, 9, 4, 1, 0, 7, 3, 0, 9, 4, 1, 0, 7, 3, 0, 1, 1]

/-! ## Properties of the recorded tables -/

/-- Samples are ordered and do not overlap: `offsets[i] + sizes[i] <= offsets[i+1]`
for every `i` in `[0, len-1)`. -/
def NonOverlapping (offsets sizes : List Int) : Prop :=
  ∀ i : Nat, i + 1 < offsets.length →
    offsets.getD i 0 + sizes.getD i 0 ≤ offsets.getD (i + 1) 0

/-- The condition under which the track loop records a sample for `track`: it is
not skipped by the matcher test and its reported length passes the three length
tests. -/
def Accepted (many : Bool) (start : List Nat) (maxlength : Int) (track : Track) : Prop :=
  (many = true → track.codec.matchSample start maxlength = true) ∧
  1 ≤ (track.codec.getLength start maxlength).1 ∧
  (track.codec.getLength start maxlength).1 ≤ MaxFrameLength ∧
  (track.codec.getLength start maxlength).1 < maxlength

instance (many : Bool) (start : List Nat) (maxlength : Int) (track : Track) :
    Decidable (Accepted many start maxlength track) := by
  unfold Accepted; infer_instance

/-- Every sample of the track starts at a non-negative payload offset, has a size
`n` with `1 <= n < min (K - o) MaxFrameLength`, and ends at or before `cursor`;
the two tables have the same length and the samples do not overlap. -/
def TrackOk (K cursor : Int) (t : Track) : Prop :=
  t.offsets.length = t.sizes.length ∧
  (∀ i : Nat, i < t.offsets.length →
    0 ≤ t.offsets.getD i 0 ∧ 1 ≤ t.sizes.getD i 0 ∧
    t.sizes.getD i 0 < min (K - t.offsets.getD i 0) MaxFrameLength ∧
    t.offsets.getD i 0 + t.sizes.getD i 0 ≤ cursor) ∧
  NonOverlapping t.offsets t.sizes

/-- The loop invariant of the scan over a payload of `K` bytes. -/
def ScanInv (K : Int) (s : ScanState) : Prop :=
  0 ≤ s.offset ∧ s.mdat.contentSize = K ∧ ∀ t ∈ s.tracks, TrackOk K s.offset t

/-- What holds of the state in which the scan ends, over a payload of `K` bytes:
either the cursor reached the end of the payload, or the scan stopped before it
and the payload box was cut at the cursor. -/
def ScanDone (K : Int) (r : ScanState) : Prop :=
  0 ≤ r.offset ∧ (∀ t ∈ r.tracks, TrackOk K r.offset t) ∧
    ((r.mdat.contentSize = K ∧ K ≤ r.offset) ∨ (r.mdat.contentSize = r.offset ∧ r.offset < K))

/-! # Theorems -/

/-! ## Words -/

theorem toUInt32_range (x : Int) : 0 ≤ toUInt32 x ∧ toUInt32 x < 4294967296 := by
  unfold toUInt32; omega

theorem ediv_ediv_256 (x : Int) :
    x / 256 / 256 = x / 65536 ∧ x / 65536 / 256 = x / 16777216 ∧
      x / 16777216 / 256 = x / 4294967296 := by
  refine ⟨?_, ?_, ?_⟩ <;> omega

theorem swap32_pos (x : Int) (h0 : 0 < x) (h1 : x < 4294967296) : 0 < swap32 x := by
  obtain ⟨e1, e2, e3⟩ := ediv_ediv_256 x
  unfold swap32; omega

theorem swap32_nonneg (x : Int) : 0 ≤ swap32 x := by
  unfold swap32; omega

/-! ## Lists built by `push_back` -/

theorem getD_push_lt (l : List Int) (x : Int) (i : Nat) (h : i < l.length) :
    (l ++ [x]).getD i 0 = l.getD i 0 := by
  simp [List.getD_eq_getElem?_getD, List.getElem?_append_left h]

theorem getD_push_eq (l : List Int) (x : Int) (i : Nat) (h : i = l.length) :
    (l ++ [x]).getD i 0 = x := by
  subst h
  simp [List.getD_eq_getElem?_getD]

/-! ## The tables of one track -/

theorem TrackOk.mono {K c c1 : Int} {t : Track} (h : TrackOk K c t) (hc : c ≤ c1) :
    TrackOk K c1 t := by
  obtain ⟨hlen, hs, ho⟩ := h
  refine ⟨hlen, fun i hi => ?_, ho⟩
  obtain ⟨h1, h2, h3, h4⟩ := hs i hi
  exact ⟨h1, h2, h3, le_trans h4 hc⟩

theorem TrackOk.clear (K c : Int) (t : Track) : TrackOk K c t.clear := by
  refine ⟨rfl, fun i hi => ?_, fun i hi => ?_⟩ <;> simp [Track.clear] at hi

theorem TrackOk.record {K c n : Int} {t : Track} (kf : Bool) (h : TrackOk K c t)
    (hc : 0 ≤ c) (h1 : 1 ≤ n) (h2 : n < min (K - c) MaxFrameLength) :
    TrackOk K (c + n) (t.record kf c n) := by
  obtain ⟨hlen, hs, ho⟩ := h
  refine ⟨by simp [Track.record, hlen], fun i hi => ?_, fun i hi => ?_⟩
  · simp only [Track.record, List.length_append, List.length_singleton] at hi ⊢
    by_cases hlt : i < t.offsets.length
    · rw [getD_push_lt _ _ _ hlt, getD_push_lt _ _ _ (hlen ▸ hlt)]
      obtain ⟨a1, a2, a3, a4⟩ := hs i hlt
      exact ⟨a1, a2, a3, by omega⟩
    · have he : i = t.offsets.length := by omega
      rw [getD_push_eq _ _ _ he, getD_push_eq _ _ _ (hlen ▸ he)]
      exact ⟨hc, h1, h2, le_refl _⟩
  · simp only [Track.record, List.length_append, List.length_singleton] at hi ⊢
    by_cases hlt : i + 1 < t.offsets.length
    · rw [getD_push_lt _ _ _ hlt, getD_push_lt _ _ _ (by omega),
        getD_push_lt _ _ _ (show i < t.sizes.length by omega)]
      exact ho i hlt
    · have he : i + 1 = t.offsets.length := by omega
      rw [getD_push_eq _ _ _ he, getD_push_lt _ _ _ (by omega),
        getD_push_lt _ _ _ (show i < t.sizes.length by omega)]
      exact (hs i (by omega)).2.2.2

/-! ## The loop over the tracks -/

theorem tryTracks_skip (many : Bool) (start : List Nat) (ml c : Int) (i : Nat) (t : Track)
    (rest : List Track) (h : ¬ Accepted many start ml t) :
    tryTracks many start ml c i (t :: rest) =
      ⟨t :: (tryTracks many start ml c (i + 1) rest).tracks,
        (i, t.codec.name) :: (tryTracks many start ml c (i + 1) rest).log,
        (tryTracks many start ml c (i + 1) rest).found⟩ := by
  simp only [tryTracks]
  split_ifs with h1 h2 h3 h4
  · rfl
  · rfl
  · rfl
  · rfl
  · exfalso
    apply h
    simp only [Bool.and_eq_true, Bool.not_eq_true', not_and, Bool.not_eq_false,
      Bool.or_eq_true, decide_eq_true_eq, not_or, not_lt, not_le, beq_iff_eq] at h1 h2 h3 h4
    refine ⟨h1, ?_, h2.2, h4⟩
    omega

theorem tryTracks_hit (many : Bool) (start : List Nat) (ml c : Int) (i : Nat) (t : Track)
    (rest : List Track) (h : Accepted many start ml t) :
    tryTracks many start ml c i (t :: rest) =
      ⟨t.record (t.codec.isKeyframe start ml) c (t.codec.getLength start ml).1 :: rest,
        [(i, t.codec.name)],
        some ((t.codec.getLength start ml).1, (t.codec.getLength start ml).2)⟩ := by
  obtain ⟨a1, a2, a3, a4⟩ := h
  simp only [tryTracks]
  split_ifs with h1 h2 h3 h4
  · exfalso
    simp only [Bool.and_eq_true, Bool.not_eq_true'] at h1
    have := a1 h1.1
    rw [h1.2] at this
    exact Bool.false_ne_true this
  · exfalso
    simp only [Bool.or_eq_true, decide_eq_true_eq] at h2
    omega
  · exfalso
    simp only [Bool.or_eq_true, beq_iff_eq] at h3
    omega
  · exfalso
    omega
  · rfl

theorem tryTracks_none (many : Bool) (start : List Nat) (ml c : Int) :
    ∀ (tracks : List Track) (i : Nat),
      (tryTracks many start ml c i tracks).found = none →
        (tryTracks many start ml c i tracks).tracks = tracks ∧
          ∀ u ∈ tracks, ¬ Accepted many start ml u := by
  intro tracks
  induction tracks with
  | nil => intro i _; exact ⟨rfl, by simp⟩
  | cons t rest ih =>
    intro i h
    by_cases ha : Accepted many start ml t
    · rw [tryTracks_hit _ _ _ _ _ _ _ ha] at h
      simp at h
    · rw [tryTracks_skip _ _ _ _ _ _ _ ha] at h ⊢
      obtain ⟨e, hn⟩ := ih (i + 1) h
      refine ⟨by simp [e], ?_⟩
      intro u hu
      rcases List.mem_cons.mp hu with rfl | hu
      · exact ha
      · exact hn u hu

theorem tryTracks_found (many : Bool) (start : List Nat) (ml c : Int) :
    ∀ (tracks : List Track) (i : Nat) (n d : Int),
      (tryTracks many start ml c i tracks).found = some (n, d) →
        ∃ pre t post, tracks = pre ++ t :: post ∧
          (tryTracks many start ml c i tracks).tracks =
            pre ++ t.record (t.codec.isKeyframe start ml) c n :: post ∧
          Accepted many start ml t ∧ t.codec.getLength start ml = (n, d) ∧
          ∀ u ∈ pre, ¬ Accepted many start ml u := by
  intro tracks
  induction tracks with
  | nil => intro i n d h; simp [tryTracks] at h
  | cons t rest ih =>
    intro i n d h
    by_cases ha : Accepted many start ml t
    · rw [tryTracks_hit _ _ _ _ _ _ _ ha] at h ⊢
      simp only [Option.some.injEq, Prod.mk.injEq] at h
      refine ⟨[], t, rest, rfl, by simp [h.1], ha, ?_, by simp⟩
      exact Prod.ext h.1 h.2
    · rw [tryTracks_skip _ _ _ _ _ _ _ ha] at h ⊢
      obtain ⟨pre, t1, post, e1, e2, h3, h4, h5⟩ := ih (i + 1) n d h
      refine ⟨t :: pre, t1, post, by simp [e1], by simp [e2], h3, h4, ?_⟩
      intro u hu
      rcases List.mem_cons.mp hu with rfl | hu
      · exact ha
      · exact h5 u hu

theorem tryTracks_log_head (many : Bool) (start : List Nat) (ml c : Int) (i : Nat)
    (t : Track) (rest : List Track) :
    (tryTracks many start ml c i (t :: rest)).log.head? = some (i, t.codec.name) := by
  by_cases ha : Accepted many start ml t
  · rw [tryTracks_hit _ _ _ _ _ _ _ ha]; rfl
  · rw [tryTracks_skip _ _ _ _ _ _ _ ha]; rfl

/-! ## The loop body -/

theorem maxLength_eq_min (s : ScanState) :
    maxLength s = min (s.mdat.contentSize - s.offset) MaxFrameLength := by
  unfold maxLength
  split_ifs with h
  · exact (min_eq_right (le_of_lt h)).symm
  · exact (min_eq_left (not_lt.mp h)).symm

theorem scanBody_next (readInt : BufferedAtom → Int → Int) (K : Int) (s s1 : ScanState)
    (hinv : ScanInv K s) (h : scanBody readInt s = .next s1) :
    ScanInv K s1 ∧ s.offset < s1.offset := by
  obtain ⟨h0, hK, ht⟩ := hinv
  have hr := toUInt32_range (readInt s.mdat s.offset)
  simp only [scanBody] at h
  split_ifs at h with b0 b1 b2
  · simp only [Step.next.injEq] at h
    subst h
    exact ⟨⟨by simp; omega, hK, fun t m => (ht t m).mono (by simp)⟩, by simp⟩
  · simp only [Step.next.injEq] at h
    subst h
    have hb : toUInt32 (readInt s.mdat s.offset) ≠ 0 := by simpa using b0
    have hp := swap32_pos _ (lt_of_le_of_ne hr.1 (Ne.symm hb)) hr.2
    exact ⟨⟨by simp; omega, hK, fun t m => (ht t m).mono (by simp; omega)⟩, by simp; omega⟩
  · simp only [Step.next.injEq] at h
    subst h
    have hb : toUInt32 (readInt s.mdat s.offset) ≠ 0 := by simpa using b0
    have hp := swap32_pos _ (lt_of_le_of_ne hr.1 (Ne.symm hb)) hr.2
    exact ⟨⟨by simp; omega, hK, fun t m => (ht t m).mono (by simp; omega)⟩, by simp; omega⟩
  · split at h
    · rename_i n d hf
      simp only [Step.next.injEq] at h
      subst h
      obtain ⟨pre, t, post, e1, e2, ha, hg, -⟩ := tryTracks_found _ _ _ _ _ _ _ _ hf
      obtain ⟨-, a2, a3, a4⟩ := ha
      rw [hg] at a2 a3 a4
      simp only at a2 a3 a4
      rw [maxLength_eq_min, hK] at a4
      refine ⟨⟨by simp; omega, hK, ?_⟩, by simp; omega⟩
      intro u hu
      simp only [e2] at hu
      rcases List.mem_append.mp hu with hu | hu
      · exact (ht u (by rw [e1]; exact List.mem_append_left _ hu)).mono (by simp; omega)
      · rcases List.mem_cons.mp hu with rfl | hu
        · exact TrackOk.record _ (ht t (by rw [e1]; simp)) h0 a2 a4
        · exact (ht u (by rw [e1]; simp [hu])).mono (by simp; omega)
    · simp at h

theorem scanBody_stop (readInt : BufferedAtom → Int → Int) (s s1 : ScanState)
    (h : scanBody readInt s = .stop s1) :
    s1.tracks = s.tracks ∧ s1.offset = s.offset ∧ s1.audiotimes = s.audiotimes ∧
      s1.count = s.count ∧ s1.mdat.file_begin = s.mdat.file_begin ∧
      s1.mdat.file_end = s.mdat.file_begin + s.offset ∧ s1.mdat.length = s.offset ∧
      toUInt32 (readInt s.mdat s.offset) ≠ 0 ∧
      tagAt (s.mdat.getFragment s.offset (maxLength s)) 4 'm' 'o' 'o' 'v' = false ∧
      tagAt (s.mdat.getFragment s.offset (maxLength s)) 4 'f' 'r' 'e' 'e' = false ∧
      ∀ u ∈ s.tracks, ¬ Accepted (decide (s.tracks.length > 1))
        (s.mdat.getFragment s.offset (maxLength s)) (maxLength s) u := by
  simp only [scanBody] at h
  split_ifs at h with b0 b1 b2
  split at h
  · simp at h
  · rename_i hf
    simp only [Step.stop.injEq] at h
    subst h
    obtain ⟨e, hn⟩ := tryTracks_none _ _ _ _ _ _ hf
    refine ⟨e, rfl, rfl, rfl, rfl, rfl, by simp, by simpa using b0, by simpa using b1,
      by simpa using b2, hn⟩

/-! ## The loop -/

theorem scanLoop_done (readInt : BufferedAtom → Int → Int) (K : Int) :
    ∀ (fuel : Nat) (s : ScanState), ScanInv K s → (K - s.offset).toNat < fuel →
      ∃ r, scanLoop readInt fuel s = some r ∧ ScanDone K r := by
  intro fuel
  induction fuel with
  | zero => intro s _ h; omega
  | succ fuel ih =>
    intro s hinv hfuel
    simp only [scanLoop]
    by_cases hlt : s.offset < s.mdat.contentSize
    · rw [if_pos hlt]
      cases hb : scanBody readInt s with
      | next s1 =>
        obtain ⟨hinv1, hadv⟩ := scanBody_next readInt K s s1 hinv hb
        have hK := hinv.2.1
        exact ih s1 hinv1 (by omega)
      | stop s1 =>
        obtain ⟨e1, e2, -, -, e3, e4, -⟩ := scanBody_stop readInt s s1 hb
        refine ⟨s1, rfl, ?_⟩
        refine ⟨by rw [e2]; exact hinv.1, ?_, Or.inr ⟨?_, ?_⟩⟩
        · intro t ht
          rw [e1] at ht
          rw [e2]
          exact hinv.2.2 t ht
        · simp [BufferedAtom.contentSize, e3, e4, e2]
        · rw [e2, ← hinv.2.1]; exact hlt
    · rw [if_neg hlt]
      exact ⟨s, rfl, hinv.1, hinv.2.2, Or.inl ⟨hinv.2.1, by rw [← hinv.2.1]; omega⟩⟩

theorem scanInit_inv (tracks : List Track) (mdat : BufferedAtom) :
    ScanInv mdat.contentSize (scanInit tracks mdat) := by
  refine ⟨le_refl _, rfl, ?_⟩
  intro t ht
  have hall : ∀ l : List Track, (∀ u ∈ l, TrackOk mdat.contentSize 0 u) →
      ∀ u ∈ swapTracks l, TrackOk mdat.contentSize 0 u := by
    intro l hl u hu
    match l, hl, hu with
    | [], _, hu => simp [swapTracks] at hu
    | [a], hl, hu => exact hl u (by simpa [swapTracks] using hu)
    | a :: b :: rest, hl, hu =>
      simp only [swapTracks] at hu
      split_ifs at hu
      · refine hl u ?_
        simp only [List.mem_cons] at hu ⊢
        tauto
      · exact hl u hu
  refine hall _ ?_ t ht
  intro u hu
  obtain ⟨v, -, rfl⟩ := List.mem_map.mp hu
  exact TrackOk.clear _ _ v

theorem repairScan_done (readInt : BufferedAtom → Int → Int) (tracks : List Track)
    (mdat : BufferedAtom) :
    ∃ r, repairScan readInt tracks mdat = some r ∧ ScanDone mdat.contentSize r := by
  refine scanLoop_done readInt mdat.contentSize _ _ (scanInit_inv tracks mdat) ?_
  simp [scanInit]

/-! ## The offset shift of `save` -/

theorem getD_map_add (l : List Int) (k : Int) (i : Nat) (h : i < l.length) :
    (l.map fun o => o + k).getD i 0 = l.getD i 0 + k := by
  simp [List.getD_eq_getElem?_getD, List.getElem?_eq_getElem h]

theorem NonOverlapping.shift {offsets sizes : List Int} (k : Int)
    (h : NonOverlapping offsets sizes) :
    NonOverlapping (offsets.map fun o => o + k) sizes := by
  intro i hi
  rw [List.length_map] at hi
  rw [getD_map_add _ _ _ hi, getD_map_add _ _ _ (by omega)]
  have := h i hi
  omega

/-! ## C1 -/

/-- C1: for every payload and every track set the scan of `repair` ends, and in
the tracks it leaves the samples are ordered and do not overlap,
`offsets[i] + sizes[i] <= offsets[i+1]` for all `i` in `[0, len-1)`; the same holds
after the offset shift of `save`, which adds one constant to every offset. -/
theorem repair_samples_ordered (readInt : BufferedAtom → Int → Int) (tracks : List Track)
    (mdat : BufferedAtom) :
    ∃ r, repairScan readInt tracks mdat = some r ∧
      (∀ t ∈ r.tracks, ∀ i : Nat, i + 1 < t.offsets.length →
        t.offsets.getD i 0 + t.sizes.getD i 0 ≤ t.offsets.getD (i + 1) 0) ∧
      ∀ (moovLength : Int) (ftypLength : Option Int),
        ∀ t ∈ fixOffsets (saveOffset moovLength ftypLength) r.tracks,
          ∀ i : Nat, i + 1 < t.offsets.length →
            t.offsets.getD i 0 + t.sizes.getD i 0 ≤ t.offsets.getD (i + 1) 0 := by
  obtain ⟨r, hr, -, hok, -⟩ := repairScan_done readInt tracks mdat
  refine ⟨r, hr, fun t ht => (hok t ht).2.2, ?_⟩
  intro moovLength ftypLength t ht
  obtain ⟨u, hu, rfl⟩ := List.mem_map.mp ht
  exact NonOverlapping.shift _ (hok u hu).2.2

/-! ## C2 -/

/-- C2: for every payload of size `K = contentSize` and every behaviour of the
codecs, the scan ends and every sample it recorded has an offset `o >= 0` and a
size `n` with `1 <= n < min (K - o) 16000000`, hence `o + n <= K`; and a track
whose reported length is below -1, equal to -1 or 0, above 16000000, or not below
the bytes remaining is left as it was while the loop goes on with the next track
at the same offset. -/
theorem repair_samples_inside_payload (readInt : BufferedAtom → Int → Int)
    (tracks : List Track) (mdat : BufferedAtom) :
    (∃ r, repairScan readInt tracks mdat = some r ∧
      ∀ t ∈ r.tracks, t.offsets.length = t.sizes.length ∧
        ∀ i : Nat, i < t.offsets.length →
          0 ≤ t.offsets.getD i 0 ∧ 1 ≤ t.sizes.getD i 0 ∧
          t.sizes.getD i 0 < min (mdat.contentSize - t.offsets.getD i 0) 16000000 ∧
          t.offsets.getD i 0 + t.sizes.getD i 0 ≤ mdat.contentSize) ∧
    ∀ (s : ScanState) (i : Nat) (t : Track) (rest : List Track) (many : Bool),
      ((t.codec.getLength (s.mdat.getFragment s.offset (maxLength s)) (maxLength s)).1 < -1 ∨
        (t.codec.getLength (s.mdat.getFragment s.offset (maxLength s)) (maxLength s)).1 = -1 ∨
        (t.codec.getLength (s.mdat.getFragment s.offset (maxLength s)) (maxLength s)).1 = 0 ∨
        (t.codec.getLength (s.mdat.getFragment s.offset (maxLength s)) (maxLength s)).1
          > 16000000 ∨
        s.mdat.contentSize - s.offset ≤
          (t.codec.getLength (s.mdat.getFragment s.offset (maxLength s)) (maxLength s)).1) →
      tryTracks many (s.mdat.getFragment s.offset (maxLength s)) (maxLength s) s.offset i
          (t :: rest) =
        ⟨t :: (tryTracks many (s.mdat.getFragment s.offset (maxLength s)) (maxLength s)
                s.offset (i + 1) rest).tracks,
          (i, t.codec.name) :: (tryTracks many (s.mdat.getFragment s.offset (maxLength s))
                (maxLength s) s.offset (i + 1) rest).log,
          (tryTracks many (s.mdat.getFragment s.offset (maxLength s)) (maxLength s)
                s.offset (i + 1) rest).found⟩ := by
  constructor
  · obtain ⟨r, hr, -, hok, -⟩ := repairScan_done readInt tracks mdat
    refine ⟨r, hr, fun t ht => ⟨(hok t ht).1, fun i hi => ?_⟩⟩
    obtain ⟨h1, h2, h3, -⟩ := (hok t ht).2.1 i hi
    refine ⟨h1, h2, h3, ?_⟩
    have := lt_of_lt_of_le h3 (min_le_left _ _)
    omega
  · intro s i t rest many hbad
    apply tryTracks_skip
    rintro ⟨-, a2, a3, a4⟩
    have hm : maxLength s ≤ s.mdat.contentSize - s.offset := by
      rw [maxLength_eq_min]; exact min_le_left _ _
    unfold MaxFrameLength at a3
    omega

/-! ## C3 -/

theorem scanBody_next_frame (readInt : BufferedAtom → Int → Int) (s s1 : ScanState)
    (h : scanBody readInt s = .next s1) :
    s1.mdat = s.mdat ∧ s1.tracks.map (fun t => t.codec) = s.tracks.map (fun t => t.codec) := by
  simp only [scanBody] at h
  split_ifs at h with b0 b1 b2
  · simp only [Step.next.injEq] at h; subst h; exact ⟨rfl, rfl⟩
  · simp only [Step.next.injEq] at h; subst h; exact ⟨rfl, rfl⟩
  · simp only [Step.next.injEq] at h; subst h; exact ⟨rfl, rfl⟩
  · split at h
    · rename_i n d hf
      simp only [Step.next.injEq] at h
      subst h
      obtain ⟨pre, t, post, e1, e2, -⟩ := tryTracks_found _ _ _ _ _ _ _ _ hf
      refine ⟨rfl, ?_⟩
      simp only [e2]
      rw [e1]
      simp [Track.record]
    · simp at h

theorem scanAfter_frame (readInt : BufferedAtom → Int → Int) :
    ∀ (n : Nat) (s0 s : ScanState), scanAfter readInt n s0 = some s →
      s.mdat = s0.mdat ∧ s.tracks.map (fun t => t.codec) = s0.tracks.map (fun t => t.codec) := by
  intro n
  induction n with
  | zero =>
    intro s0 s h
    simp only [scanAfter, Option.some.injEq] at h
    subst h
    exact ⟨rfl, rfl⟩
  | succ n ih =>
    intro s0 s h
    simp only [scanAfter] at h
    split_ifs at h with hlt
    cases hb : scanBody readInt s0 with
    | next s1 =>
      rw [hb] at h
      obtain ⟨e1, e2⟩ := ih s1 s h
      obtain ⟨f1, f2⟩ := scanBody_next_frame readInt s0 s1 hb
      exact ⟨e1.trans f1, e2.trans f2⟩
    | stop s1 => rw [hb] at h; simp at h

theorem scanAfter_inv (readInt : BufferedAtom → Int → Int) (K : Int) :
    ∀ (n : Nat) (s0 s : ScanState), scanAfter readInt n s0 = some s → ScanInv K s0 →
      ScanInv K s := by
  intro n
  induction n with
  | zero =>
    intro s0 s h hinv
    simp only [scanAfter, Option.some.injEq] at h
    subst h
    exact hinv
  | succ n ih =>
    intro s0 s h hinv
    simp only [scanAfter] at h
    split_ifs at h with hlt
    cases hb : scanBody readInt s0 with
    | next s1 =>
      rw [hb] at h
      exact ih s1 s h (scanBody_next readInt K s0 s1 hinv hb).1
    | stop s1 => rw [hb] at h; simp at h

theorem scanAfter_scanLoop (readInt : BufferedAtom → Int → Int) :
    ∀ (n fuel : Nat) (s0 s : ScanState), scanAfter readInt n s0 = some s →
      scanLoop readInt (n + fuel) s0 = scanLoop readInt fuel s := by
  intro n
  induction n with
  | zero =>
    intro fuel s0 s h
    simp only [scanAfter, Option.some.injEq] at h
    subst h
    simp
  | succ n ih =>
    intro fuel s0 s h
    simp only [scanAfter] at h
    split_ifs at h with hlt
    cases hb : scanBody readInt s0 with
    | next s1 =>
      rw [hb] at h
      have e : n + 1 + fuel = (n + fuel) + 1 := by omega
      rw [e]
      simp only [scanLoop, if_pos hlt, hb]
      exact ih fuel s1 s h
    | stop s1 => rw [hb] at h; simp at h

theorem scanLoop_mono (readInt : BufferedAtom → Int → Int) :
    ∀ (fuel k : Nat) (s r : ScanState), scanLoop readInt fuel s = some r →
      scanLoop readInt (fuel + k) s = some r := by
  intro fuel
  induction fuel with
  | zero => intro k s r h; simp [scanLoop] at h
  | succ fuel ih =>
    intro k s r h
    have e : fuel + 1 + k = (fuel + k) + 1 := by omega
    rw [e]
    simp only [scanLoop] at h ⊢
    split_ifs at h ⊢ with hlt
    · cases hb : scanBody readInt s with
      | next s1 =>
        rw [hb] at h
        exact ih k s1 r h
      | stop s1 =>
        rw [hb] at h
        exact h
    · exact h

/-! ## C5 -/

/-- C5 as stated fails: with the three tracks avc1, tmcd, mp4a the first track is
not mp4a and a later one is, yet the scan starts with the tracks in the order
avc1, tmcd, mp4a and its track loop takes up avc1 first and mp4a last. -/
theorem repair_tries_mp4a_first_counterexample :
    (scanInit [Track.empty (Codec.none "avc1") 0 0, Track.empty (Codec.none "tmcd") 0 0,
        Track.empty (Codec.fixed "mp4a" 4 1024) 0 0]
      (BufferedAtom.ofBytes [1, 1, 1, 1, 1, 1, 1, 1, 1, 1])).tracks.map (fun t => t.codec.name)
      = ["avc1", "tmcd", "mp4a"] ∧
    trackLog (scanInit [Track.empty (Codec.none "avc1") 0 0,
        Track.empty (Codec.none "tmcd") 0 0, Track.empty (Codec.fixed "mp4a" 4 1024) 0 0]
      (BufferedAtom.ofBytes [1, 1, 1, 1, 1, 1, 1, 1, 1, 1]))
      = [(0, "avc1"), (1, "tmcd"), (2, "mp4a")] := by
  constructor
  · decide
  · decide

/-- C5, amended: when there is more than one track, track 0 is not mp4a and
track 1 is mp4a, the scan runs with these two tracks swapped; in every state it
goes through there is more than one track (so the matcher is asked) and the loop
over the tracks takes up the mp4a track, at index 0, first. -/
theorem repair_tries_mp4a_first (readInt : BufferedAtom → Int → Int) (t0 t1 : Track)
    (rest : List Track) (mdat : BufferedAtom) (n : Nat) (s : ScanState)
    (h0 : t0.codec.name ≠ "mp4a") (h1 : t1.codec.name = "mp4a")
    (hreach : scanAfter readInt n (scanInit (t0 :: t1 :: rest) mdat) = some s) :
    s.tracks.map (fun t => t.codec) = t1.codec :: t0.codec :: rest.map (fun t => t.codec) ∧
      1 < s.tracks.length ∧ (trackLog s).head? = some (0, "mp4a") := by
  have hinit : (scanInit (t0 :: t1 :: rest) mdat).tracks.map (fun t => t.codec) =
      t1.codec :: t0.codec :: rest.map (fun t => t.codec) := by
    have hc : (t0.clear.codec.name != "mp4a" && t1.clear.codec.name == "mp4a") = true := by
      simp [Track.clear, h0, h1]
    simp only [scanInit, List.map_cons, swapTracks]
    rw [if_pos hc]
    simp [Track.clear]
  have hcod := (scanAfter_frame readInt n _ s hreach).2
  rw [hinit] at hcod
  refine ⟨hcod, ?_, ?_⟩
  · have := congrArg List.length hcod
    simp only [List.length_map, List.length_cons] at this
    omega
  · match hs : s.tracks, hcod with
    | [], hcod => simp [hs] at hcod
    | a :: more, hcod =>
      simp only [List.map_cons, List.cons.injEq] at hcod
      unfold trackLog
      rw [hs, tryTracks_log_head, hcod.1, h1]

/-- C5 on the sample of the spec, tracks avc1 and mp4a: after one frame of avc1
was recorded from a payload that starts with it, the track loop still takes up
mp4a first. -/
theorem repair_tries_mp4a_first_witness :
    [(Track.empty (Codec.byTag "mp4a" 7 1024) 0 0),
      (Track.empty (Codec.byTag "avc1" 9 0) 0 0).record true 0 4].map (fun t => t.codec) =
      [Codec.byTag "mp4a" 7 1024, Codec.byTag "avc1" 9 0] ∧
    1 < [(Track.empty (Codec.byTag "mp4a" 7 1024) 0 0),
      (Track.empty (Codec.byTag "avc1" 9 0) 0 0).record true 0 4].length ∧
    (trackLog
      { tracks := [(Track.empty (Codec.byTag "mp4a" 7 1024) 0 0),
          (Track.empty (Codec.byTag "avc1" 9 0) 0 0).record true 0 4],
        audiotimes := [], count := 1, offset := 4,
        mdat := BufferedAtom.ofBytes [9, 4, 1, 0, 7, 3, 0, 1, 1, 1, 1, 1] }).head? =
      some (0, "mp4a") :=
  repair_tries_mp4a_first rawReadInt (Track.empty (Codec.byTag "avc1" 9 0) 0 0)
    (Track.empty (Codec.byTag "mp4a" 7 1024) 0 0) []
    (BufferedAtom.ofBytes [9, 4, 1, 0, 7, 3, 0, 1, 1, 1, 1, 1]) 1 _ (by decide) (by decide) rfl

/-! ## C9 -/

/-- C9 as stated fails for a single track: the only track's matcher rejects the
window (its first byte is 5, the codec wants 9), and the loop body still records
a sample of the reported length 3 at offset 0 for it. -/
theorem repair_records_first_match_counterexample :
    (Codec.byTag "avc1" 9 0).matchSample
        ((BufferedAtom.ofBytes [5, 3, 0, 1, 1, 1, 1, 1]).getFragment 0 8) 8 = false ∧
      scanBody rawReadInt (scanInit [Track.empty (Codec.byTag "avc1" 9 0) 0 0]
        (BufferedAtom.ofBytes [5, 3, 0, 1, 1, 1, 1, 1])) =
      .next
        { tracks := [(Track.empty (Codec.byTag "avc1" 9 0) 0 0).record false 0 3],
          audiotimes := [], count := 1, offset := 3,
          mdat := BufferedAtom.ofBytes [5, 3, 0, 1, 1, 1, 1, 1] } :=
  ⟨by decide, rfl⟩

/-- C9, amended: when a run of the loop body changes the tracks, exactly one
track changes, by one sample at the cursor: the first track in order that is
accepted, that is, whose reported length `n` satisfies `1 <= n <= 16000000` and
`n < maxlength` and, when there is more than one track, whose matcher accepted
the window.  With more than one track no sample goes to a track whose matcher
rejected the window; with a single track the matcher is not asked. -/
theorem repair_records_first_match (readInt : BufferedAtom → Int → Int) (s s1 : ScanState)
    (hstep : scanBody readInt s = .next s1) (hrec : s1.tracks ≠ s.tracks) :
    ∃ pre t post,
      s.tracks = pre ++ t :: post ∧
      s1.tracks = pre ++
        t.record (t.codec.isKeyframe (s.mdat.getFragment s.offset (maxLength s)) (maxLength s))
          s.offset (t.codec.getLength (s.mdat.getFragment s.offset (maxLength s))
            (maxLength s)).1 :: post ∧
      (1 < s.tracks.length →
        t.codec.matchSample (s.mdat.getFragment s.offset (maxLength s)) (maxLength s) = true) ∧
      1 ≤ (t.codec.getLength (s.mdat.getFragment s.offset (maxLength s)) (maxLength s)).1 ∧
      (t.codec.getLength (s.mdat.getFragment s.offset (maxLength s)) (maxLength s)).1
        ≤ 16000000 ∧
      (t.codec.getLength (s.mdat.getFragment s.offset (maxLength s)) (maxLength s)).1
        < maxLength s ∧
      ∀ u ∈ pre, ¬ Accepted (decide (s.tracks.length > 1))
        (s.mdat.getFragment s.offset (maxLength s)) (maxLength s) u := by
  simp only [scanBody] at hstep
  split_ifs at hstep with b0 b1 b2
  · simp only [Step.next.injEq] at hstep; subst hstep; exact absurd rfl hrec
  · simp only [Step.next.injEq] at hstep; subst hstep; exact absurd rfl hrec
  · simp only [Step.next.injEq] at hstep; subst hstep; exact absurd rfl hrec
  · split at hstep
    · rename_i n d hf
      simp only [Step.next.injEq] at hstep
      subst hstep
      obtain ⟨pre, t, post, e1, e2, ha, hg, hpre⟩ := tryTracks_found _ _ _ _ _ _ _ _ hf
      have hn : (t.codec.getLength (s.mdat.getFragment s.offset (maxLength s))
          (maxLength s)).1 = n := by rw [hg]
      refine ⟨pre, t, post, e1, ?_, ?_, ha.2.1, ha.2.2.1, ha.2.2.2, hpre⟩
      · rw [hn]; exact e2
      · intro hmany
        exact ha.1 (by simpa using hmany)
    · simp at hstep

/-- C9 on a sample with two tracks, mp4a first: the window starts with the byte of
avc1, so mp4a is passed over unchanged and the sample goes to avc1. -/
theorem repair_records_first_match_witness :
    ∃ pre t post,
      [Track.empty (Codec.byTag "mp4a" 7 1024) 0 0, Track.empty (Codec.byTag "avc1" 9 0) 0 0]
        = pre ++ t :: post ∧
      [Track.empty (Codec.byTag "mp4a" 7 1024) 0 0,
        (Track.empty (Codec.byTag "avc1" 9 0) 0 0).record true 0 4] = pre ++
        t.record (t.codec.isKeyframe [9, 4, 1, 0, 7, 3, 0, 1] 8) 0
          (t.codec.getLength [9, 4, 1, 0, 7, 3, 0, 1] 8).1 :: post ∧
      (1 < 2 → t.codec.matchSample [9, 4, 1, 0, 7, 3, 0, 1] 8 = true) ∧
      1 ≤ (t.codec.getLength [9, 4, 1, 0, 7, 3, 0, 1] 8).1 ∧
      (t.codec.getLength [9, 4, 1, 0, 7, 3, 0, 1] 8).1 ≤ 16000000 ∧
      (t.codec.getLength [9, 4, 1, 0, 7, 3, 0, 1] 8).1 < 8 ∧
      ∀ u ∈ pre, ¬ Accepted (decide (2 > 1)) [9, 4, 1, 0, 7, 3, 0, 1] 8 u :=
  repair_records_first_match rawReadInt
    { tracks := [Track.empty (Codec.byTag "mp4a" 7 1024) 0 0,
        Track.empty (Codec.byTag "avc1" 9 0) 0 0],
      audiotimes := [], count := 0, offset := 0,
      mdat := BufferedAtom.ofBytes [9, 4, 1, 0, 7, 3, 0, 1] }
    { tracks := [Track.empty (Codec.byTag "mp4a" 7 1024) 0 0,
        (Track.empty (Codec.byTag "avc1" 9 0) 0 0).record true 0 4],
      audiotimes := [], count := 1, offset := 4,
      mdat := BufferedAtom.ofBytes [9, 4, 1, 0, 7, 3, 0, 1] }
    rfl
    (fun h => by
      have h2 := congrArg (List.map fun t => t.offsets) h
      revert h2
      decide)

/-! ## C10 -/

theorem scanBody_stop_of (readInt : BufferedAtom → Int → Int) (s : ScanState)
    (hword : toUInt32 (readInt s.mdat s.offset) ≠ 0)
    (hmoov : tagAt (s.mdat.getFragment s.offset (maxLength s)) 4 'm' 'o' 'o' 'v' = false)
    (hfree : tagAt (s.mdat.getFragment s.offset (maxLength s)) 4 'f' 'r' 'e' 'e' = false)
    (hnone : ∀ u ∈ s.tracks, ¬ Accepted (decide (s.tracks.length > 1))
      (s.mdat.getFragment s.offset (maxLength s)) (maxLength s) u) :
    ∃ s1, scanBody readInt s = .stop s1 := by
  cases hb : scanBody readInt s with
  | stop s1 => exact ⟨s1, rfl⟩
  | next s1 =>
    exfalso
    simp only [scanBody] at hb
    rw [if_neg (by simpa using hword), hmoov, hfree] at hb
    simp only [Bool.false_eq_true, if_false] at hb
    split at hb
    · rename_i n d hf
      obtain ⟨pre, t, post, e1, -, ha, -⟩ := tryTracks_found _ _ _ _ _ _ _ _ hf
      exact hnone t (by rw [e1]; simp) ha
    · simp at hb

/-- C10: when the scan gets to a state with the cursor at `o` inside the payload,
the word read there is not 0, the bytes after it spell neither `moov` nor `free`,
and no track is accepted, the scan of `repair` ends there: its tracks are those of
that state (nothing is recorded at or after the step), the payload box is cut to
`file_end = file_begin + o`, so that its content size is `o`, and every sample
recorded lies in `[0, o]`. -/
theorem repair_stops_when_no_track_accepts (readInt : BufferedAtom → Int → Int)
    (tracks : List Track) (mdat : BufferedAtom) (n : Nat) (s : ScanState)
    (hreach : scanAfter readInt n (scanInit tracks mdat) = some s)
    (hlt : s.offset < s.mdat.contentSize)
    (hword : toUInt32 (readInt s.mdat s.offset) ≠ 0)
    (hmoov : tagAt (s.mdat.getFragment s.offset (maxLength s)) 4 'm' 'o' 'o' 'v' = false)
    (hfree : tagAt (s.mdat.getFragment s.offset (maxLength s)) 4 'f' 'r' 'e' 'e' = false)
    (hnone : ∀ u ∈ s.tracks, ¬ Accepted (decide (s.tracks.length > 1))
      (s.mdat.getFragment s.offset (maxLength s)) (maxLength s) u) :
    ∃ r, repairScan readInt tracks mdat = some r ∧
      r.tracks = s.tracks ∧ r.offset = s.offset ∧
      r.mdat.file_begin = mdat.file_begin ∧ r.mdat.file_end = mdat.file_begin + s.offset ∧
      r.mdat.contentSize = s.offset ∧
      ∀ t ∈ r.tracks, ∀ i : Nat, i < t.offsets.length →
        0 ≤ t.offsets.getD i 0 ∧ t.offsets.getD i 0 + t.sizes.getD i 0 ≤ s.offset := by
  obtain ⟨s1, hb⟩ := scanBody_stop_of readInt s hword hmoov hfree hnone
  obtain ⟨e1, e2, -, -, e3, e4, -⟩ := scanBody_stop readInt s s1 hb
  have hmd : s.mdat = mdat := (scanAfter_frame readInt n _ s hreach).1
  have hinv := scanAfter_inv readInt mdat.contentSize n _ s hreach (scanInit_inv tracks mdat)
  obtain ⟨r, hr, -⟩ := repairScan_done readInt tracks mdat
  have hrun : scanLoop readInt (n + (mdat.contentSize.toNat + 1)) (scanInit tracks mdat) =
      some s1 := by
    rw [scanAfter_scanLoop readInt n _ _ s hreach]
    simp only [scanLoop, if_pos hlt, hb]
  have hr2 := scanLoop_mono readInt _ n _ r hr
  rw [Nat.add_comm] at hr2
  rw [hrun] at hr2
  have hrs : r = s1 := (Option.some.inj hr2).symm
  subst hrs
  refine ⟨r, hr, e1, e2, by rw [e3, hmd], by rw [e4, hmd], ?_, ?_⟩
  · simp [BufferedAtom.contentSize, e3, e4]
  · intro t ht i hi
    rw [e1] at ht
    obtain ⟨h1, -, -, h4⟩ := (hinv.2.2 t ht).2.1 i hi
    exact ⟨h1, h4⟩

/-- C10 on a sample: after two frames the cursor is at 7 of 12 bytes, where no
track accepts; the scan ends with the two frames and the payload cut to 7 bytes. -/
theorem repair_stops_when_no_track_accepts_witness :
    ∃ r, repairScan rawReadInt sampleTracks samplePayload = some r ∧
      r.tracks = sampleState.tracks ∧ r.offset = sampleState.offset ∧
      r.mdat.file_begin = samplePayload.file_begin ∧
      r.mdat.file_end = samplePayload.file_begin + sampleState.offset ∧
      r.mdat.contentSize = sampleState.offset ∧
      ∀ t ∈ r.tracks, ∀ i : Nat, i < t.offsets.length →
        0 ≤ t.offsets.getD i 0 ∧
          t.offsets.getD i 0 + t.sizes.getD i 0 ≤ sampleState.offset :=
  repair_stops_when_no_track_accepts rawReadInt sampleTracks samplePayload 2 sampleState
    rfl (by decide) (by decide) (by decide) (by decide) (by decide)

/-! ## Written boxes -/

theorem be32Bytes_length (x : Int) : (be32Bytes x).length = 4 := rfl

theorem tagBytes_length (name : String) : (tagBytes name).length = 4 := by
  simp [tagBytes]

mutual
theorem Atom.write_length_updateLength :
    ∀ a : Atom, ((a.updateLength.write).length : Int) = a.updateLength.length
  | .mk start length name content children => by
    have ih := writeAll_length_updateLengthAll children
    simp only [Atom.updateLength, Atom.write, Atom.length, List.length_append,
      be32Bytes_length, tagBytes_length]
    push_cast
    omega
theorem writeAll_length_updateLengthAll :
    ∀ l : List Atom, ((writeAll (updateLengthAll l)).length : Int) =
      lengthSum (updateLengthAll l)
  | [] => by simp [updateLengthAll, writeAll, lengthSum]
  | a :: rest => by
    have ih1 := Atom.write_length_updateLength a
    have ih2 := writeAll_length_updateLengthAll rest
    simp only [updateLengthAll, writeAll, lengthSum, List.length_append]
    push_cast
    rw [ih1, ih2]
end

mutual
theorem Atom.write_length_of_lengthsOk :
    ∀ a : Atom, a.LengthsOk → ((a.write).length : Int) = a.length
  | .mk start length name content children => by
    intro h
    simp only [Atom.LengthsOk] at h
    have ih := writeAll_length_of_lengthsOk children h.2
    simp only [Atom.write, Atom.length, List.length_append, be32Bytes_length,
      tagBytes_length]
    push_cast
    have h1 := h.1
    omega
theorem writeAll_length_of_lengthsOk :
    ∀ l : List Atom, LengthsOkAll l → ((writeAll l).length : Int) = lengthSum l
  | [] => by intro _; simp [writeAll, lengthSum]
  | a :: rest => by
    intro h
    simp only [LengthsOkAll] at h
    have ih1 := Atom.write_length_of_lengthsOk a h.1
    have ih2 := writeAll_length_of_lengthsOk rest h.2
    simp only [writeAll, lengthSum, List.length_append]
    push_cast
    rw [ih1, ih2]
end

theorem Atom.write_eq (a : Atom) :
    a.write = be32Bytes a.length ++ tagBytes a.name ++ a.content ++ writeAll a.children := by
  cases a
  simp [Atom.write, Atom.length, Atom.name, Atom.content, Atom.children]

theorem Atom.updateLength_content (a : Atom) : a.updateLength.content = a.content := by
  cases a
  simp [Atom.updateLength, Atom.content]

theorem writeAll_append (l1 l2 : List Atom) :
    writeAll (l1 ++ l2) = writeAll l1 ++ writeAll l2 := by
  induction l1 with
  | nil => simp [writeAll]
  | cons a l ih => simp [writeAll, ih]

theorem writeAll_toList (f : Option Atom) :
    ((writeAll f.toList).length : Int) = ((f.map fun a => (a.write.length : Int)).getD 0) := by
  cases f <;> simp [writeAll]

/-! ## C6 -/

/-- C6: when `save` finds the metadata and the payload box, it writes the
file-type box (when there is one), the metadata box and the payload box in this
order, and every sample offset of every track becomes its old value plus
`offset` = file-type box length (when present) + recomputed metadata box length
+ 8.  When writing the shifted tables back leaves the size of the metadata box as
it was, `offset` is the position in the output at which the payload content
begins: the payload box starts 8 bytes before it, payload byte `r` stands at
position `offset + r`, and an offset that was `>= 0` is at least the start of
the payload box. -/
theorem save_offsets_shifted_to_payload (prune : String → Atom → Atom)
    (writeToAtoms : Track → Atom → Atom) (root : Atom) (tracks : List Track)
    (moov mdat : Atom)
    (hmoov : root.atomByName "moov" = some moov)
    (hmdat : root.atomByName "mdat" = some mdat)
    (hsize : ((fixOffsets (savedOffset prune (root.atomByName "ftyp") moov) tracks).foldl
      (fun m t => writeToAtoms t m) (savedMoov prune moov)).write.length =
        (savedMoov prune moov).write.length) :
    savedOffset prune (root.atomByName "ftyp") moov =
      ftypLength ((root.atomByName "ftyp").map Atom.updateLength) +
        (savedMoov prune moov).length + 8 ∧
    ∃ tracks1 boxes, saveBoxes prune writeToAtoms root tracks = some (tracks1, boxes) ∧
      boxes = ((root.atomByName "ftyp").map Atom.updateLength).toList ++
        [tracks1.foldl (fun m t => writeToAtoms t m) (savedMoov prune moov),
          mdat.updateLength] ∧
      tracks1.map (fun t => t.offsets) = tracks.map (fun t =>
        t.offsets.map fun o => o + savedOffset prune (root.atomByName "ftyp") moov) ∧
      tracks1.map (fun t => t.sizes) = tracks.map (fun t => t.sizes) ∧
      ∃ before header, writeAll boxes =
          before ++ header ++ mdat.content ++ writeAll mdat.updateLength.children ∧
        header.length = 8 ∧
        (before.length : Int) + 8 = savedOffset prune (root.atomByName "ftyp") moov ∧
        (∀ r : Nat, r < mdat.content.length →
          (writeAll boxes).getD ((savedOffset prune (root.atomByName "ftyp") moov).toNat + r) 0
            = mdat.content.getD r 0) ∧
        ((∀ u ∈ tracks, ∀ o ∈ u.offsets, 0 ≤ o) →
          ∀ t ∈ tracks1, ∀ o ∈ t.offsets, (before.length : Int) ≤ o) := by
  have hoff : savedOffset prune (root.atomByName "ftyp") moov =
      ftypLength ((root.atomByName "ftyp").map Atom.updateLength) +
        (savedMoov prune moov).length + 8 := by
    unfold savedOffset saveOffset ftypLength
    cases root.atomByName "ftyp" with
    | none => simp
    | some f => simp; ring
  refine ⟨hoff, fixOffsets (savedOffset prune (root.atomByName "ftyp") moov) tracks, _,
    by simp [saveBoxes, hmoov, hmdat], rfl, by simp [fixOffsets], by simp [fixOffsets], ?_⟩
  have hdec : writeAll (((root.atomByName "ftyp").map Atom.updateLength).toList ++
      [(fixOffsets (savedOffset prune (root.atomByName "ftyp") moov) tracks).foldl
        (fun m t => writeToAtoms t m) (savedMoov prune moov), mdat.updateLength]) =
      (writeAll ((root.atomByName "ftyp").map Atom.updateLength).toList ++
        ((fixOffsets (savedOffset prune (root.atomByName "ftyp") moov) tracks).foldl
          (fun m t => writeToAtoms t m) (savedMoov prune moov)).write) ++
      (be32Bytes mdat.updateLength.length ++ tagBytes mdat.updateLength.name) ++
      mdat.content ++ writeAll mdat.updateLength.children := by
    rw [writeAll_append]
    simp only [writeAll, List.append_nil]
    rw [Atom.write_eq mdat.updateLength, Atom.updateLength_content]
    simp only [List.append_assoc]
  have hlen : (((writeAll ((root.atomByName "ftyp").map Atom.updateLength).toList ++
        ((fixOffsets (savedOffset prune (root.atomByName "ftyp") moov) tracks).foldl
          (fun m t => writeToAtoms t m) (savedMoov prune moov)).write).length : Nat) : Int) + 8 =
      savedOffset prune (root.atomByName "ftyp") moov := by
    have hm : (((savedMoov prune moov).write).length : Int) = (savedMoov prune moov).length :=
      Atom.write_length_updateLength _
    rw [List.length_append, hsize, hoff]
    push_cast
    rw [hm, writeAll_toList]
    cases hf : root.atomByName "ftyp" with
    | none => simp [ftypLength]
    | some f =>
      simp only [Option.map_some', Option.getD_some, ftypLength]
      rw [Atom.write_length_updateLength]
  refine ⟨_, _, hdec, by simp [be32Bytes_length, tagBytes_length], hlen, ?_, ?_⟩
  · intro r hr
    rw [hdec]
    have hpos : (savedOffset prune (root.atomByName "ftyp") moov).toNat + r =
        ((writeAll ((root.atomByName "ftyp").map Atom.updateLength).toList ++
          ((fixOffsets (savedOffset prune (root.atomByName "ftyp") moov) tracks).foldl
            (fun m t => writeToAtoms t m) (savedMoov prune moov)).write) ++
          (be32Bytes mdat.updateLength.length ++ tagBytes mdat.updateLength.name)).length + r := by
      rw [List.length_append _ (be32Bytes _ ++ _)]
      simp only [List.length_append _ (tagBytes _), be32Bytes_length, tagBytes_length]
      omega
    rw [hpos, List.append_assoc _ mdat.content, List.getD_eq_getElem?_getD,
      List.getElem?_append_right (Nat.le_add_right _ _), Nat.add_sub_cancel_left,
      List.getElem?_append_left hr, List.getD_eq_getElem?_getD]
  · intro hnn t ht o ho
    obtain ⟨u, hu, rfl⟩ := List.mem_map.mp ht
    obtain ⟨o0, ho0, rfl⟩ := List.mem_map.mp ho
    have := hnn u hu o0 ho0
    omega

/-- C6 on a sample: the two tracks of `sampleState`, with the payload-relative
offsets 4 and 0, are saved with a file-type box of 12 bytes and a metadata box of
60 bytes; the offsets become 84 and 80, and byte 84 of the output is payload
byte 4. -/
theorem save_offsets_shifted_to_payload_witness :
    ∃ tracks1 boxes,
      saveBoxes (fun _ a => a) (fun _ m => m) sampleRoot sampleState.tracks =
        some (tracks1, boxes) ∧
      tracks1.map (fun t => t.offsets) = [[84], [80]] ∧
      (writeAll boxes).getD 84 0 = samplePayload.file.getD 4 0 := by
  obtain ⟨-, tracks1, boxes, h1, -, h3, -, before, header, -, -, -, h8, -⟩ :=
    save_offsets_shifted_to_payload (fun _ a => a) (fun _ m => m) sampleRoot
      sampleState.tracks (sampleMoov.place 32) (sampleMdat.place 12) rfl rfl (by decide)
  exact ⟨tracks1, boxes, h1, h3.trans (by decide), h8 4 (by decide)⟩

/-! ## Boxes: fields kept by the operations -/

theorem Atom.eta (a : Atom) : a = .mk a.start a.length a.name a.content a.children := by
  cases a; rfl

theorem Atom.lengthsOk_iff (a : Atom) :
    a.LengthsOk ↔
      a.length = 8 + a.content.length + lengthSum a.children ∧ LengthsOkAll a.children := by
  cases a
  simp [Atom.LengthsOk, Atom.length, Atom.content, Atom.children]

theorem setWord_length (bytes : List Nat) (pos : Nat) (word : List Nat) (hw : word.length = 4) :
    (setWord bytes pos word).length = bytes.length := by
  unfold setWord
  split_ifs with h
  · simp only [List.length_append, List.length_take, List.length_drop, hw]
    omega
  · rfl

theorem Atom.writeInt_fields (a : Atom) (value offset : Int) :
    (a.writeInt value offset).start = a.start ∧ (a.writeInt value offset).length = a.length ∧
      (a.writeInt value offset).name = a.name ∧
      (a.writeInt value offset).children = a.children ∧
      (a.writeInt value offset).content.length = a.content.length := by
  refine ⟨rfl, rfl, rfl, rfl, ?_⟩
  simp only [Atom.writeInt, Atom.content]
  exact setWord_length _ _ _ (be32Bytes_length _)

theorem foldl_writeInt_fields (f : Atom → Nat → Int) (g : Nat → Int) :
    ∀ (js : List Nat) (a : Atom),
      (js.foldl (fun a j => a.writeInt (f a j) (g j)) a).start = a.start ∧
      (js.foldl (fun a j => a.writeInt (f a j) (g j)) a).length = a.length ∧
      (js.foldl (fun a j => a.writeInt (f a j) (g j)) a).name = a.name ∧
      (js.foldl (fun a j => a.writeInt (f a j) (g j)) a).children = a.children ∧
      (js.foldl (fun a j => a.writeInt (f a j) (g j)) a).content.length = a.content.length := by
  intro js
  induction js with
  | nil => intro a; exact ⟨rfl, rfl, rfl, rfl, rfl⟩
  | cons j js ih =>
    intro a
    obtain ⟨h1, h2, h3, h4, h5⟩ := ih (a.writeInt (f a j) (g j))
    obtain ⟨k1, k2, k3, k4, k5⟩ := Atom.writeInt_fields a (f a j) (g j)
    simp only [List.foldl_cons]
    exact ⟨h1.trans k1, h2.trans k2, h3.trans k3, h4.trans k4, h5.trans k5⟩

theorem shiftStco_fields (diff : Int) (a : Atom) :
    (shiftStco diff a).start = a.start ∧ (shiftStco diff a).length = a.length ∧
      (shiftStco diff a).name = a.name ∧ (shiftStco diff a).children = a.children ∧
      (shiftStco diff a).content.length = a.content.length := by
  unfold shiftStco
  exact foldl_writeInt_fields (fun b j => b.readInt (8 + toInt32 (4 * (j : Int))) + diff)
    (fun j => 8 + toInt32 (4 * (j : Int))) (List.range (a.readInt 4).toNat) a

theorem Atom.relocate_fields (diff : Int) (a : Atom) :
    (a.relocate diff).start = a.start ∧ (a.relocate diff).length = a.length ∧
      (a.relocate diff).name = a.name ∧ (a.relocate diff).content = a.content ∧
      (a.relocate diff).children = relocateAll diff a.children := by
  cases a
  exact ⟨rfl, rfl, rfl, rfl, rfl⟩

theorem Atom.place_fields (pos : Int) (a : Atom) :
    (a.place pos).start = pos ∧ (a.place pos).length = a.length ∧
      (a.place pos).name = a.name ∧ (a.place pos).content = a.content ∧
      (a.place pos).children = placeAll (pos + 8 + a.content.length) a.children := by
  cases a
  exact ⟨rfl, rfl, rfl, rfl, rfl⟩

theorem Atom.atomByName_eq (name : String) (a : Atom) :
    a.atomByName name = atomByNameAll name a.children := by
  cases a; rfl

mutual
theorem Atom.LengthsOk.length_ge : ∀ a : Atom, a.LengthsOk → 8 ≤ a.length
  | .mk start length name content children => by
    intro h
    simp only [Atom.LengthsOk] at h
    have := LengthsOkAll.lengthSum_nonneg children h.2
    simp only [Atom.length]
    omega
theorem LengthsOkAll.lengthSum_nonneg : ∀ l : List Atom, LengthsOkAll l → 0 ≤ lengthSum l
  | [] => by intro _; simp [lengthSum]
  | a :: rest => by
    intro h
    simp only [LengthsOkAll] at h
    have h1 := Atom.LengthsOk.length_ge a h.1
    have h2 := LengthsOkAll.lengthSum_nonneg rest h.2
    simp only [lengthSum]
    omega
end

mutual
theorem Atom.atomByName_name :
    ∀ (a : Atom) (name : String) (r : Atom), a.atomByName name = some r → r.name = name
  | .mk start length nm content children => by
    intro name r h
    exact atomByNameAll_name children name r h
theorem atomByNameAll_name :
    ∀ (l : List Atom) (name : String) (r : Atom), atomByNameAll name l = some r → r.name = name
  | [] => by intro name r h; simp [atomByNameAll] at h
  | a :: rest => by
    intro name r h
    simp only [atomByNameAll] at h
    split_ifs at h with hn
    · simp only [Option.some.injEq] at h
      subst h
      simpa using hn
    · cases ha : a.atomByName name with
      | some r1 =>
        rw [ha] at h
        simp only [Option.some.injEq] at h
        subst h
        exact Atom.atomByName_name a name r1 ha
      | none =>
        rw [ha] at h
        exact atomByNameAll_name rest name r h
end

mutual
theorem Atom.place_atomByName_start :
    ∀ (a : Atom) (pos : Int) (name : String) (r : Atom), a.LengthsOk →
      (a.place pos).atomByName name = some r → pos + 8 ≤ r.start
  | .mk start length nm content children => by
    intro pos name r hok h
    simp only [Atom.LengthsOk] at hok
    simp only [Atom.place, Atom.atomByName] at h
    have := placeAll_atomByNameAll_start children _ name r hok.2 h
    omega
theorem placeAll_atomByNameAll_start :
    ∀ (l : List Atom) (pos : Int) (name : String) (r : Atom), LengthsOkAll l →
      atomByNameAll name (placeAll pos l) = some r → pos ≤ r.start
  | [] => by intro pos name r _ h; simp [placeAll, atomByNameAll] at h
  | a :: rest => by
    intro pos name r hok h
    simp only [LengthsOkAll] at hok
    simp only [placeAll, atomByNameAll] at h
    split_ifs at h with hn
    · simp only [Option.some.injEq] at h
      subst h
      rw [(Atom.place_fields pos a).1]
    · cases ha : (a.place pos).atomByName name with
      | some r1 =>
        rw [ha] at h
        simp only [Option.some.injEq] at h
        subst h
        have := Atom.place_atomByName_start a pos name r1 hok.1 ha
        omega
      | none =>
        rw [ha] at h
        have h1 := placeAll_atomByNameAll_start rest _ name r hok.2 h
        have h2 := Atom.LengthsOk.length_ge a hok.1
        omega
end

mutual
theorem Atom.relocate_lengthsOk :
    ∀ (diff : Int) (a : Atom), a.LengthsOk → (a.relocate diff).LengthsOk
  | diff, .mk start length nm content children => by
    intro h
    simp only [Atom.LengthsOk] at h
    obtain ⟨h1, h2⟩ := relocateAll_lengthsOk diff children h.2
    simp only [Atom.relocate, Atom.LengthsOk]
    exact ⟨by rw [h2]; exact h.1, h1⟩
theorem relocateAll_lengthsOk :
    ∀ (diff : Int) (l : List Atom), LengthsOkAll l →
      LengthsOkAll (relocateAll diff l) ∧ lengthSum (relocateAll diff l) = lengthSum l
  | diff, [] => by intro _; simp [relocateAll, LengthsOkAll]
  | diff, a :: rest => by
    intro h
    simp only [LengthsOkAll] at h
    have h1 := Atom.relocate_lengthsOk diff a h.1
    obtain ⟨h2, h3⟩ := relocateAll_lengthsOk diff rest h.2
    have hf := Atom.relocate_fields diff a
    have hs := shiftStco_fields diff (a.relocate diff)
    simp only [relocateAll, LengthsOkAll, lengthSum]
    split_ifs with hn
    · refine ⟨⟨?_, h2⟩, by rw [hs.2.1, hf.2.1, h3]⟩
      rw [Atom.lengthsOk_iff] at h1 ⊢
      rw [hs.2.1, hs.2.2.2.1, hs.2.2.2.2]
      exact h1
    · exact ⟨⟨h1, h2⟩, by rw [hf.2.1, h3]⟩
end

/-! ## C7 -/

theorem placeAll_moov_mdat (m d : Atom) (p : Int) (hm : m.name = "moov")
    (hd : d.name = "mdat") (hok : m.LengthsOk) :
    atomByNameAll "moov" (placeAll p [m, d]) = some (m.place p) ∧
      ∃ r, atomByNameAll "mdat" (placeAll p [m, d]) = some r ∧ p < r.start := by
  have hmp := Atom.place_fields p m
  have hdp := Atom.place_fields (p + m.length) d
  have hlen := Atom.LengthsOk.length_ge m hok
  constructor
  · simp [placeAll, atomByNameAll, hmp.2.2.1, hm]
  · simp only [placeAll, atomByNameAll, hmp.2.2.1, hm, hdp.2.2.1, hd]
    rw [if_neg (by decide)]
    cases ha : (m.place p).atomByName "mdat" with
    | some r1 =>
      refine ⟨r1, rfl, ?_⟩
      have := Atom.place_atomByName_start m p "mdat" r1 hok ha
      omega
    | none =>
      refine ⟨d.place (p + m.length), by simp, ?_⟩
      rw [hdp.1]
      omega

theorem placeAll_leaf (f : Atom) (rest : List Atom) (name : String) (hleaf : f.children = [])
    (hn : f.name ≠ name) :
    atomByNameAll name (placeAll 0 (f :: rest)) = atomByNameAll name (placeAll f.length rest) := by
  have hfp := Atom.place_fields 0 f
  have hnone : (f.place 0).atomByName name = none := by
    rw [Atom.atomByName_eq, hfp.2.2.2.2, hleaf]
    rfl
  simp only [placeAll, atomByNameAll, hfp.2.2.1, hnone]
  rw [if_neg (by simpa using hn)]
  simp

theorem makeStreamable_eq (root moov mdat : Atom)
    (hmoov : root.atomByName "moov" = some moov) (hmdat : root.atomByName "mdat" = some mdat) :
    makeStreamable root =
      if mdat.start > moov.start then (true, none)
      else (true, some ((root.atomByName "ftyp").toList ++
        [moov.relocate (moov.length + 8 + ftypLength (root.atomByName "ftyp")
          - (mdat.start + 8)), mdat])) := by
  simp only [makeStreamable, hmoov, hmdat]

/-- C7: for every input with a metadata and a payload box `makeStreamable` returns
true.  When the first run writes a file, that file holds the file-type box (if
present), the metadata box and the payload box in this order; read back, its
payload box starts strictly after its metadata box, and a second run on it
returns true without writing anything, so no chunk-offset entry changes.  When
the first run writes no file, the input already had the payload box after the
metadata box.  The metadata box is taken to satisfy the length invariant of the
spec, and the file-type box to have no child boxes. -/
theorem makeStreamable_twice_is_noop (root moov mdat : Atom)
    (hmoov : root.atomByName "moov" = some moov) (hmdat : root.atomByName "mdat" = some mdat)
    (hok : moov.LengthsOk)
    (hleaf : ∀ f, root.atomByName "ftyp" = some f → f.children = []) :
    (makeStreamable root).1 = true ∧
    ((makeStreamable root).2 = none → mdat.start > moov.start) ∧
    ∀ boxes, (makeStreamable root).2 = some boxes →
      boxes = (root.atomByName "ftyp").toList ++
        [moov.relocate (moov.length + 8 + ftypLength (root.atomByName "ftyp")
          - (mdat.start + 8)), mdat] ∧
      (∃ m2 d2, (reparse boxes).atomByName "moov" = some m2 ∧
        (reparse boxes).atomByName "mdat" = some d2 ∧ m2.start < d2.start) ∧
      makeStreamable (reparse boxes) = (true, none) := by
  rw [makeStreamable_eq root moov mdat hmoov hmdat]
  by_cases hs : mdat.start > moov.start
  · rw [if_pos hs]
    exact ⟨rfl, fun _ => hs, fun boxes h => by simp at h⟩
  · rw [if_neg hs]
    refine ⟨rfl, fun h => by simp at h, ?_⟩
    intro boxes hb
    simp only [Option.some.injEq] at hb
    subst hb
    refine ⟨rfl, ?_⟩
    have hmn : moov.name = "moov" := Atom.atomByName_name root "moov" moov hmoov
    have hdn : mdat.name = "mdat" := Atom.atomByName_name root "mdat" mdat hmdat
    have hrel := Atom.relocate_fields (moov.length + 8 + ftypLength (root.atomByName "ftyp")
      - (mdat.start + 8)) moov
    have hrok := Atom.relocate_lengthsOk (moov.length + 8 +
      ftypLength (root.atomByName "ftyp") - (mdat.start + 8)) moov hok
    have key : ∀ p : Int, ∀ pre : List Atom,
        (∀ name, name = "moov" ∨ name = "mdat" →
          atomByNameAll name (placeAll 0 (pre ++ [moov.relocate (moov.length + 8 +
            ftypLength (root.atomByName "ftyp") - (mdat.start + 8)), mdat])) =
          atomByNameAll name (placeAll p [moov.relocate (moov.length + 8 +
            ftypLength (root.atomByName "ftyp") - (mdat.start + 8)), mdat])) →
        (∃ m2 d2, (reparse (pre ++ [moov.relocate (moov.length + 8 +
            ftypLength (root.atomByName "ftyp") - (mdat.start + 8)), mdat])).atomByName "moov"
            = some m2 ∧
          (reparse (pre ++ [moov.relocate (moov.length + 8 +
            ftypLength (root.atomByName "ftyp") - (mdat.start + 8)), mdat])).atomByName "mdat"
            = some d2 ∧ m2.start < d2.start) ∧
        makeStreamable (reparse (pre ++ [moov.relocate (moov.length + 8 +
            ftypLength (root.atomByName "ftyp") - (mdat.start + 8)), mdat])) = (true, none) := by
      intro p pre hpre
      obtain ⟨h1, r, h2, h3⟩ := placeAll_moov_mdat _ mdat p (hrel.2.2.1.trans hmn) hdn hrok
      have e1 : (reparse (pre ++ [moov.relocate (moov.length + 8 +
          ftypLength (root.atomByName "ftyp") - (mdat.start + 8)), mdat])).atomByName "moov" =
          some ((moov.relocate (moov.length + 8 + ftypLength (root.atomByName "ftyp")
            - (mdat.start + 8))).place p) := by
        rw [reparse, Atom.atomByName, hpre "moov" (Or.inl rfl), h1]
      have e2 : (reparse (pre ++ [moov.relocate (moov.length + 8 +
          ftypLength (root.atomByName "ftyp") - (mdat.start + 8)), mdat])).atomByName "mdat" =
          some r := by
        rw [reparse, Atom.atomByName, hpre "mdat" (Or.inr rfl), h2]
      have hst : ((moov.relocate (moov.length + 8 + ftypLength (root.atomByName "ftyp")
          - (mdat.start + 8))).place p).start < r.start := by
        rw [(Atom.place_fields p _).1]; exact h3
      refine ⟨⟨_, r, e1, e2, hst⟩, ?_⟩
      rw [makeStreamable_eq _ _ r e1 e2, if_pos hst]
    cases hf : root.atomByName "ftyp" with
    | none =>
      simp only [Option.toList]
      rw [hf] at key
      exact key 0 [] (fun name _ => rfl)
    | some f =>
      simp only [Option.toList]
      rw [hf] at key
      refine key f.length [f] (fun name hname => ?_)
      have hfn : f.name = "ftyp" := Atom.atomByName_name root "ftyp" f hf
      refine placeAll_leaf f _ name (hleaf f hf) ?_
      rw [hfn]
      rcases hname with rfl | rfl <;> decide

theorem sampleMoov_lengthsOk : (sampleMoov.place 32).LengthsOk := by
  simp [sampleMoov, sampleStco, Atom.place, placeAll, Atom.LengthsOk, LengthsOkAll, lengthSum,
    Atom.length]

/-- C7 on a sample: in `sampleRoot` the payload box comes before the metadata box;
the first run writes a file, and the second run on that file returns true and
writes nothing. -/
theorem makeStreamable_twice_is_noop_witness :
    (makeStreamable sampleRoot).1 = true ∧
      ∃ boxes, (makeStreamable sampleRoot).2 = some boxes ∧
        makeStreamable (reparse boxes) = (true, none) := by
  have h := makeStreamable_twice_is_noop sampleRoot (sampleMoov.place 32) (sampleMdat.place 12)
    rfl rfl sampleMoov_lengthsOk (fun f hf => by
      have e : some (sampleFtyp.place 0) = some f := hf
      simp only [Option.some.injEq] at e
      subst e
      rfl)
  refine ⟨h.1, ?_⟩
  cases hb : (makeStreamable sampleRoot).2 with
  | none => exact absurd (h.2.1 hb) (by decide)
  | some boxes => exact ⟨boxes, rfl, (h.2.2 boxes hb).2.2⟩

/-! ## Words in a payload -/

theorem setWord_getD (bytes : List Nat) (pos : Nat) (word : List Nat) (i : Nat)
    (hw : word.length = 4) (hin : pos + 4 ≤ bytes.length) :
    (setWord bytes pos word).getD i 0 =
      if pos ≤ i ∧ i < pos + 4 then word.getD (i - pos) 0 else bytes.getD i 0 := by
  unfold setWord
  rw [if_pos hin]
  have hlt : (List.take pos bytes).length = pos := by
    rw [List.length_take]; omega
  simp only [List.getD_eq_getElem?_getD]
  by_cases h1 : i < pos
  · rw [if_neg (by omega), List.append_assoc,
      List.getElem?_append_left (by rw [hlt]; exact h1), List.getElem?_take_of_lt h1]
  · by_cases h2 : i < pos + 4
    · rw [if_pos (by omega), List.getElem?_append_left
        (by rw [List.length_append, hlt, hw]; exact h2),
        List.getElem?_append_right (by rw [hlt]; omega), hlt]
    · rw [if_neg (by omega), List.getElem?_append_right
        (by rw [List.length_append, hlt, hw]; omega), List.length_append, hlt, hw,
        List.getElem?_drop]
      congr 2
      omega

theorem be32_be32Bytes (v : Int) : be32 (be32Bytes v) 0 = toUInt32 v := by
  have hr := toUInt32_range v
  obtain ⟨e1, e2, e3⟩ := ediv_ediv_256 (toUInt32 v)
  simp only [be32, be32Bytes, List.getD_cons_zero, List.getD_cons_succ, zero_add]
  omega

theorem be32_setWord_same (bytes : List Nat) (pos : Nat) (v : Int)
    (hin : pos + 4 ≤ bytes.length) :
    be32 (setWord bytes pos (be32Bytes v)) pos = toUInt32 v := by
  rw [← be32_be32Bytes v]
  simp only [be32]
  rw [setWord_getD _ _ _ _ (be32Bytes_length v) hin,
    setWord_getD _ _ _ _ (be32Bytes_length v) hin,
    setWord_getD _ _ _ _ (be32Bytes_length v) hin,
    setWord_getD _ _ _ _ (be32Bytes_length v) hin]
  rw [if_pos (by omega), if_pos (by omega), if_pos (by omega), if_pos (by omega)]
  simp only [Nat.sub_self, Nat.add_sub_cancel_left, zero_add]

theorem be32_congr (b1 b2 : List Nat) (pos : Nat)
    (h : ∀ i, pos ≤ i → i < pos + 4 → b1.getD i 0 = b2.getD i 0) :
    be32 b1 pos = be32 b2 pos := by
  simp only [be32]
  rw [h pos (by omega) (by omega), h (pos + 1) (by omega) (by omega),
    h (pos + 2) (by omega) (by omega), h (pos + 3) (by omega) (by omega)]

/-! ## The loop over the entries of a chunk-offset box -/

theorem Atom.writeInt_content (a : Atom) (value offset : Int) :
    (a.writeInt value offset).content = setWord a.content offset.toNat (be32Bytes value) := rfl

theorem shiftStco_loop (diff : Int) (a : Atom) (n : Nat) (hn : n ≤ 536870912)
    (hlen : 8 + 4 * n ≤ a.content.length) :
    ∀ k : Nat, k ≤ n →
      ((List.range k).foldl
        (fun (b : Atom) (j : Nat) => b.writeInt (b.readInt (8 + toInt32 (4 * (j : Int))) + diff)
          (8 + toInt32 (4 * (j : Int)))) a).content.length = a.content.length ∧
      (∀ i : Nat, i < 8 ∨ 8 + 4 * k ≤ i →
        ((List.range k).foldl
          (fun (b : Atom) (j : Nat) => b.writeInt (b.readInt (8 + toInt32 (4 * (j : Int))) + diff)
            (8 + toInt32 (4 * (j : Int)))) a).content.getD i 0 = a.content.getD i 0) ∧
      (∀ j : Nat, j < k →
        be32 ((List.range k).foldl
          (fun (b : Atom) (j : Nat) => b.writeInt (b.readInt (8 + toInt32 (4 * (j : Int))) + diff)
            (8 + toInt32 (4 * (j : Int)))) a).content (8 + 4 * j) =
          toUInt32 (be32 a.content (8 + 4 * j) + diff)) := by
  intro k
  induction k with
  | zero =>
    intro _
    exact ⟨rfl, fun _ _ => rfl, fun j hj => absurd hj (Nat.not_lt_zero j)⟩
  | succ k ih =>
    intro hk
    obtain ⟨h1, h2, h3⟩ := ih (by omega)
    rw [List.range_succ, List.foldl_append]
    simp only [List.foldl_cons, List.foldl_nil]
    generalize (List.range k).foldl
      (fun (b : Atom) (j : Nat) => b.writeInt (b.readInt (8 + toInt32 (4 * (j : Int))) + diff)
        (8 + toInt32 (4 * (j : Int)))) a = b at h1 h2 h3
    have hpos : (8 + toInt32 (4 * (k : Int))).toNat = 8 + 4 * k := by
      unfold toInt32; omega
    have hin : 8 + 4 * k + 4 ≤ b.content.length := by omega
    rw [Atom.writeInt_content, hpos]
    refine ⟨?_, ?_, ?_⟩
    · rw [setWord_length _ _ _ (be32Bytes_length _), h1]
    · intro i hi
      rw [setWord_getD _ _ _ _ (be32Bytes_length _) hin, if_neg (by omega)]
      exact h2 i (by omega)
    · intro j hj
      by_cases hjk : j < k
      · rw [← h3 j hjk]
        apply be32_congr
        intro i hi1 hi2
        rw [setWord_getD _ _ _ _ (be32Bytes_length _) hin, if_neg (by omega)]
      · have hjeq : j = k := by omega
        subst hjeq
        rw [be32_setWord_same _ _ _ hin]
        have hrd : b.readInt (8 + toInt32 (4 * (j : Int))) =
            toInt32 (be32 a.content (8 + 4 * j)) := by
          unfold Atom.readInt
          rw [hpos]
          have hc := be32_congr b.content a.content (8 + 4 * j)
            (fun i hi1 _ => h2 i (Or.inr hi1))
          rw [hc]
        rw [hrd]
        generalize be32 a.content (8 + 4 * j) = e
        clear hrd hin hpos h1 h2 h3 ih hlen hn hk hj hjk
        unfold toUInt32 toInt32
        omega

theorem shiftStco_table (diff : Int) (x : Atom) (hx : StcoOk x) :
    (shiftStco diff x).content.length = x.content.length ∧
      (∀ i : Nat, i < 8 ∨ 8 + 4 * (x.readInt 4).toNat ≤ i →
        (shiftStco diff x).content.getD i 0 = x.content.getD i 0) ∧
      (shiftStco diff x).readInt 4 = x.readInt 4 ∧
      ∀ j : Nat, (j : Int) < x.readInt 4 →
        be32 (shiftStco diff x).content (8 + 4 * j) =
          toUInt32 (be32 x.content (8 + 4 * j) + diff) := by
  obtain ⟨h0, h1, h2⟩ := hx
  obtain ⟨k1, k2, k3⟩ := shiftStco_loop diff x (x.readInt 4).toNat (by omega) (by omega)
    (x.readInt 4).toNat (le_refl _)
  refine ⟨k1, k2, ?_, fun j hj => k3 j (by omega)⟩
  unfold Atom.readInt
  rw [be32_congr (shiftStco diff x).content x.content (4 : Int).toNat
    (fun i _ hi2 => k2 i (Or.inl (by
      have : (4 : Int).toNat = 4 := rfl
      omega)))]

/-! ## The boxes below the metadata box -/

theorem Atom.node_eq_iff (x y : Atom) :
    x.node = y.node ↔
      x.start = y.start ∧ x.length = y.length ∧ x.name = y.name ∧ x.content = y.content := by
  simp [Atom.node]

theorem foldl_writeInt_node (f : List Nat → Nat → Int) (g : Nat → Int) :
    ∀ (js : List Nat) (x y : Atom), x.node = y.node →
      (js.foldl (fun (b : Atom) (j : Nat) => b.writeInt (f b.content j) (g j)) x).node =
        (js.foldl (fun (b : Atom) (j : Nat) => b.writeInt (f b.content j) (g j)) y).node := by
  intro js
  induction js with
  | nil => intro x y h; exact h
  | cons j js ih =>
    intro x y h
    simp only [List.foldl_cons]
    apply ih
    rw [Atom.node_eq_iff] at h ⊢
    obtain ⟨h1, h2, h3, h4⟩ := h
    refine ⟨h1, h2, h3, ?_⟩
    rw [Atom.writeInt_content, Atom.writeInt_content, h4]

theorem shiftStco_node (diff : Int) (x y : Atom) (h : x.node = y.node) :
    (shiftStco diff x).node = (shiftStco diff y).node := by
  have hc : x.content = y.content := ((Atom.node_eq_iff x y).mp h).2.2.2
  have hr : x.readInt 4 = y.readInt 4 := by unfold Atom.readInt; rw [hc]
  unfold shiftStco
  rw [hr]
  exact foldl_writeInt_node
    (fun c j => toInt32 (be32 c (8 + toInt32 (4 * (j : Int))).toNat) + diff)
    (fun j => 8 + toInt32 (4 * (j : Int))) _ x y h

theorem Atom.atomsByName_eq (name : String) (a : Atom) :
    a.atomsByName name = atomsByNameAll name a.children := by
  cases a; rfl

mutual
theorem Atom.relocate_atomsByName :
    ∀ (diff : Int) (name : String) (a : Atom),
      ((a.relocate diff).atomsByName name).map Atom.node =
        (a.atomsByName name).map
          (fun x => if x.name == "stco" then (shiftStco diff x).node else x.node)
  | diff, name, .mk start length nm content children => by
    simp only [Atom.relocate, Atom.atomsByName]
    exact relocateAll_atomsByNameAll diff name children
theorem relocateAll_atomsByNameAll :
    ∀ (diff : Int) (name : String) (l : List Atom),
      (atomsByNameAll name (relocateAll diff l)).map Atom.node =
        (atomsByNameAll name l).map
          (fun x => if x.name == "stco" then (shiftStco diff x).node else x.node)
  | diff, name, [] => by simp [relocateAll, atomsByNameAll]
  | diff, name, a :: rest => by
    have ih1 := Atom.relocate_atomsByName diff name a
    have ih2 := relocateAll_atomsByNameAll diff name rest
    have hf := Atom.relocate_fields diff a
    have hs := shiftStco_fields diff (a.relocate diff)
    have hnode : (a.relocate diff).node = a.node := by
      rw [Atom.node_eq_iff]
      exact ⟨hf.1, hf.2.1, hf.2.2.1, hf.2.2.2.1⟩
    simp only [relocateAll, atomsByNameAll, List.map_append]
    by_cases hst : (a.name == "stco") = true
    · rw [if_pos hst]
      have hsub : (shiftStco diff (a.relocate diff)).atomsByName name =
          (a.relocate diff).atomsByName name := by
        rw [Atom.atomsByName_eq, Atom.atomsByName_eq, hs.2.2.2.1]
      have hhead : List.map Atom.node
          (if ((shiftStco diff (a.relocate diff)).name == name) = true then
            [shiftStco diff (a.relocate diff)] else []) =
          List.map (fun x => if x.name == "stco" then (shiftStco diff x).node else x.node)
            (if (a.name == name) = true then [a] else []) := by
        rw [hs.2.2.1, hf.2.2.1]
        by_cases hn : (a.name == name) = true
        · rw [if_pos hn, if_pos hn]
          simp only [List.map_cons, List.map_nil, hst, if_true]
          rw [shiftStco_node diff _ _ hnode]
        · rw [if_neg hn, if_neg hn]
          rfl
      rw [hhead, hsub, ih1, ih2]
    · rw [if_neg hst]
      have hhead : List.map Atom.node
          (if ((a.relocate diff).name == name) = true then [a.relocate diff] else []) =
          List.map (fun x => if x.name == "stco" then (shiftStco diff x).node else x.node)
            (if (a.name == name) = true then [a] else []) := by
        rw [hf.2.2.1]
        by_cases hn : (a.name == name) = true
        · rw [if_pos hn, if_pos hn]
          simp only [List.map_cons, List.map_nil, hst, Bool.false_eq_true, if_false, hnode]
        · rw [if_neg hn, if_neg hn]
          rfl
      rw [hhead, ih1, ih2]
end

/-! ## C8 -/

/-- C8: when the payload box does not start after the metadata box,
`makeStreamable` writes the file-type box (if present), the metadata box and the
payload box, and below the metadata box only the boxes named `stco` differ from
the input, each by the loop of lines 327-334 with `delta` = (metadata box length
+ 8 + file-type box length when present) - (old payload start + 8).  In a well
formed table that loop keeps the size, the first 8 body bytes (so the entry count
at body offset 4) and all bytes after the entries, and turns each 32-bit entry
`e` at body offset `8 + 4*j`, `j` below the entry count, into `e + delta` modulo
`2^32`; when `e + delta` fits 32 bits the entry is as far from the new payload
content start as `e` was from the old one.  With the length invariant, the new
payload content start is the position of the payload content in the output. -/
theorem makeStreamable_shifts_chunk_offsets (root moov mdat : Atom)
    (hmoov : root.atomByName "moov" = some moov) (hmdat : root.atomByName "mdat" = some mdat)
    (htrail : ¬ mdat.start > moov.start) :
    ∃ moov1,
      makeStreamable root = (true, some ((root.atomByName "ftyp").toList ++ [moov1, mdat])) ∧
      (∀ name : String, (moov1.atomsByName name).map Atom.node =
        (moov.atomsByName name).map (fun x =>
          if x.name == "stco" then
            (shiftStco (moov.length + 8 + ftypLength (root.atomByName "ftyp")
              - (mdat.start + 8)) x).node
          else x.node)) ∧
      (∀ x : Atom, StcoOk x →
        (shiftStco (moov.length + 8 + ftypLength (root.atomByName "ftyp")
          - (mdat.start + 8)) x).content.length = x.content.length ∧
        (∀ i : Nat, i < 8 ∨ 8 + 4 * (x.readInt 4).toNat ≤ i →
          (shiftStco (moov.length + 8 + ftypLength (root.atomByName "ftyp")
            - (mdat.start + 8)) x).content.getD i 0 = x.content.getD i 0) ∧
        (shiftStco (moov.length + 8 + ftypLength (root.atomByName "ftyp")
          - (mdat.start + 8)) x).readInt 4 = x.readInt 4 ∧
        ∀ j : Nat, (j : Int) < x.readInt 4 →
          be32 (shiftStco (moov.length + 8 + ftypLength (root.atomByName "ftyp")
              - (mdat.start + 8)) x).content (8 + 4 * j) =
            toUInt32 (be32 x.content (8 + 4 * j) + (moov.length + 8 +
              ftypLength (root.atomByName "ftyp") - (mdat.start + 8))) ∧
          (0 ≤ be32 x.content (8 + 4 * j) + (moov.length + 8 +
              ftypLength (root.atomByName "ftyp") - (mdat.start + 8)) →
            be32 x.content (8 + 4 * j) + (moov.length + 8 +
              ftypLength (root.atomByName "ftyp") - (mdat.start + 8)) < 4294967296 →
            be32 (shiftStco (moov.length + 8 + ftypLength (root.atomByName "ftyp")
                - (mdat.start + 8)) x).content (8 + 4 * j)
              - (moov.length + 8 + ftypLength (root.atomByName "ftyp")) =
            be32 x.content (8 + 4 * j) - (mdat.start + 8))) ∧
      (moov.LengthsOk → (∀ f, root.atomByName "ftyp" = some f → f.LengthsOk) →
        ∃ before, writeAll ((root.atomByName "ftyp").toList ++ [moov1, mdat]) =
            before ++ mdat.write ∧
          (before.length : Int) + 8 = moov.length + 8 + ftypLength (root.atomByName "ftyp")) := by
  refine ⟨moov.relocate (moov.length + 8 + ftypLength (root.atomByName "ftyp")
    - (mdat.start + 8)), ?_, ?_, ?_, ?_⟩
  · rw [makeStreamable_eq root moov mdat hmoov hmdat, if_neg htrail]
  · intro name
    exact Atom.relocate_atomsByName _ name moov
  · intro x hx
    obtain ⟨k1, k2, k3, k4⟩ := shiftStco_table (moov.length + 8 +
      ftypLength (root.atomByName "ftyp") - (mdat.start + 8)) x hx
    refine ⟨k1, k2, k3, fun j hj => ⟨k4 j hj, fun h0 h1 => ?_⟩⟩
    rw [k4 j hj]
    unfold toUInt32
    rw [Int.emod_eq_of_lt h0 h1]
    ring
  · intro hok hfok
    refine ⟨writeAll (root.atomByName "ftyp").toList ++
      (moov.relocate (moov.length + 8 + ftypLength (root.atomByName "ftyp")
        - (mdat.start + 8))).write, ?_, ?_⟩
    · rw [writeAll_append]
      simp only [writeAll, List.append_nil, List.append_assoc]
    · have hm := Atom.write_length_of_lengthsOk _ (Atom.relocate_lengthsOk (moov.length + 8 +
        ftypLength (root.atomByName "ftyp") - (mdat.start + 8)) moov hok)
      rw [(Atom.relocate_fields _ moov).2.1] at hm
      rw [List.length_append]
      push_cast
      rw [hm, writeAll_toList]
      cases hf : root.atomByName "ftyp" with
      | none => simp [ftypLength]
      | some f =>
        simp only [Option.map_some', Option.getD_some, ftypLength]
        rw [Atom.write_length_of_lengthsOk f (hfok f hf)]
        ring

/-- C8 on a sample: in `sampleRoot` the payload content starts at 20 and the
entries of the one chunk-offset table are 20, 24 and 27; the output has the
payload content at 80, and the entries are 80, 84 and 87. -/
theorem makeStreamable_shifts_chunk_offsets_witness :
    ∃ moov1,
      makeStreamable sampleRoot =
        (true, some ((sampleRoot.atomByName "ftyp").toList ++ [moov1, sampleMdat.place 12])) ∧
      (moov1.atomsByName "stco").map Atom.content =
        [[0, 0, 0, 0, 0, 0, 0, 3, 0, 0, 0, 80, 0, 0, 0, 84, 0, 0, 0, 87]] := by
  obtain ⟨moov1, h1, h2, -⟩ := makeStreamable_shifts_chunk_offsets sampleRoot
    (sampleMoov.place 32) (sampleMdat.place 12) rfl rfl (by decide)
  refine ⟨moov1, h1, ?_⟩
  have h3 := congrArg (List.map (fun n : Int × Int × String × List Nat => n.2.2.2)) (h2 "stco")
  rw [List.map_map, List.map_map] at h3
  exact h3.trans (by decide)

/-! ## C11 -/

/-- Every run of the loop body that does not end the scanning loop moves the
cursor strictly forward, whatever `readInt` returns. -/
theorem scanBody_next_lt (readInt : BufferedAtom → Int → Int) (s s1 : ScanState)
    (h : scanBody readInt s = .next s1) : s.offset < s1.offset := by
  have hr := toUInt32_range (readInt s.mdat s.offset)
  simp only [scanBody] at h
  split_ifs at h with b0 b1 b2
  · simp only [Step.next.injEq] at h
    subst h
    simp
  · simp only [Step.next.injEq] at h
    subst h
    have hb : toUInt32 (readInt s.mdat s.offset) ≠ 0 := by simpa using b0
    have hp := swap32_pos _ (lt_of_le_of_ne hr.1 (Ne.symm hb)) hr.2
    simp only
    omega
  · simp only [Step.next.injEq] at h
    subst h
    have hb : toUInt32 (readInt s.mdat s.offset) ≠ 0 := by simpa using b0
    have hp := swap32_pos _ (lt_of_le_of_ne hr.1 (Ne.symm hb)) hr.2
    simp only
    omega
  · split at h
    · rename_i n d hf
      simp only [Step.next.injEq] at h
      subst h
      obtain ⟨pre, t, post, -, -, ha, hg, -⟩ := tryTracks_found _ _ _ _ _ _ _ _ hf
      have a2 := ha.2.1
      rw [hg] at a2
      simp only at a2 ⊢
      omega
    · simp at h

/-- A header that is not `mdat` and whose length makes line 597 seek to the
position the header was read at keeps the search of lines 585-609 at that
position: for every header reader, no number of iterations ends it. -/
theorem findMdat_stuck (header : List Nat → Int → Option AtomHeader) (file : List Nat)
    (p : Int) (atom : AtomHeader) (hh : header file p = some atom)
    (hn : atom.name ≠ "mdat") (hback : atom.pos - 8 + atom.length = p) :
    ∀ fuel : Nat, findMdat header file fuel p = none := by
  intro fuel
  induction fuel with
  | zero => rfl
  | succ n ih =>
    simp only [findMdat, hh]
    rw [if_pos (by simpa using hn), hback]
    exact ih

/-- C11 fails on the code: the first box of `stuckFile` is a `free` box with the
16-byte header and the 64-bit length 0xFFFFFFFFFFFFFFF8, which is -8 in an
`int64_t`.  `parseHeader` leaves the file position at 16, line 597 seeks to
16 - 8 + (-8) = 0, the position of the same header, and the loop of lines 585-597
reads it again: the search for the payload box ends for no number of iterations,
neither with an `mdat` header nor with the structural error. -/
theorem repair_search_stuck_sample :
    parseHeader stuckFile 0 = some { start := 0, length := -8, name := "free", pos := 16 } ∧
      ¬ ∃ fuel s, findMdat parseHeader stuckFile fuel 0 = some s := by
  have hh : parseHeader stuckFile 0 =
      some { start := 0, length := -8, name := "free", pos := 16 } := by decide
  refine ⟨hh, ?_⟩
  rintro ⟨fuel, s, h⟩
  rw [findMdat_stuck parseHeader stuckFile 0 _ hh (by decide) (by decide) fuel] at h
  simp at h

/-! ## C12 -/

theorem findMdat_found_range (header : List Nat → Int → Option AtomHeader) (file : List Nat) :
    ∀ (fuel : Nat) (p : Int) (mdat : BufferedAtom),
      findMdat header file fuel p = some (.found mdat) →
        mdat.file_end = (file.length : Int) - mdat.file_begin ∧
          mdat.contentSize = (file.length : Int) - 2 * mdat.file_begin := by
  intro fuel
  induction fuel with
  | zero => intro p mdat h; simp [findMdat] at h
  | succ fuel ih =>
    intro p mdat h
    simp only [findMdat] at h
    cases hh : header file p with
    | none => rw [hh] at h; simp at h
    | some atom =>
      rw [hh] at h
      simp only at h
      split_ifs at h with hn
      · exact ih _ mdat h
      · simp only [Option.some.injEq, Search.found.injEq] at h
        subst h
        refine ⟨rfl, ?_⟩
        simp only [BufferedAtom.contentSize]
        ring

/-- C12 fails on the code: `mdatFirstFile` is one payload box, header at 0, with
16 bytes of content in a file of 24 bytes.  `repair` sets `file_begin` to 8, just
after the header, but `file_end` to 24 - 8 = 16, a size and not an end position,
so that the content size the scan works with is 8 and not 16: the scan records
the frames at 0 and 4, stops at 7 and cuts the box to `file_end` 15, and the
frames at 7 and 11 are never looked at. -/
theorem repair_payload_range_sample :
    findMdat parseHeader mdatFirstFile 1 0 =
        some (.found { start := 0, length := 0, file := mdatFirstFile, file_begin := 8,
                       file_end := 16 }) ∧
      (mdatFirstFile.length : Int) - 8 = 16 ∧
      BufferedAtom.contentSize
          { start := 0, length := 0, file := mdatFirstFile, file_begin := 8,
            file_end := 16 } = 8 ∧
      (repairScan rawReadInt sampleTracks
          { start := 0, length := 0, file := mdatFirstFile, file_begin := 8,
            file_end := 16 }).map
        (fun r => (r.tracks.map (fun t => (t.codec.name, t.offsets, t.sizes)), r.offset,
          r.mdat.file_end)) =
        some ([("mp4a", [4], [3]), ("avc1", [0], [4])], 7, 15) := by
  refine ⟨rfl, by decide, by decide, by decide⟩

end Untrunc
